import Mathlib

/-!
# boshtags: the tag record (tag.go) and the manifest scanner (parser.go)

A shallow embedding of the two source files and the properties proved about them.

Strings.  A Go string is a byte sequence holding UTF-8 text.  It is represented here by the list
of its characters (`Str`); every offset the Go code computes (`strings.Index`,
`strings.IndexAny`, slicing) is a byte offset, and is computed here from the UTF-8 width of the
characters (`utf8Width`), so offsets agree with Go on every valid UTF-8 text.  Go compares
strings bytewise; on UTF-8 text this is the order of the code points, which `strLE` implements.

Integers.  Line numbers and columns are Go `int`s; they are unbounded here (an overflow would
need a manifest of 2^63 lines).
-/

namespace Boshtags

/-- A Go string, as the list of its characters. -/
abbrev Str := List Char

/-! ## Library functions used by the two files -/

/-- Number of bytes of the UTF-8 encoding of a character. -/
def utf8Width (c : Char) : Nat :=
  if c.toNat < 128 then 1 else if c.toNat < 2048 then 2 else if c.toNat < 65536 then 3 else 4

/-- Go `len(s)`: the number of bytes of `s`. -/
def byteLen : Str → Nat
  | [] => 0
  | c :: cs => utf8Width c + byteLen cs

/-- Go `strconv.Itoa` and the verb `%d` of `fmt.Sprintf`: decimal rendering of an integer. -/
def Itoa : Int → Str
  | Int.ofNat n => Nat.toDigits 10 n
  | Int.negSucc n => '-' :: Nat.toDigits 10 (n + 1)

/-- Byte offset of the first occurrence of `sub` in `s`, if there is one. -/
def indexOf? : Str → Str → Option Nat
  | [], sub => if sub = [] then some 0 else none
  | c :: cs, sub =>
    if sub.isPrefixOf (c :: cs) then some 0
    else (indexOf? cs sub).map (fun i => utf8Width c + i)

/-- Go `strings.Index(s, sub)`: byte offset of the first occurrence of `sub` in `s`, or -1. -/
def Index (s sub : Str) : Int :=
  match indexOf? s sub with
  | some i => (i : Int)
  | none => -1

/-- Byte offset of the first character of `s` that belongs to `chars`, if there is one. -/
def indexAny? : Str → Str → Option Nat
  | [], _ => none
  | c :: cs, chars =>
    if c ∈ chars then some 0 else (indexAny? cs chars).map (fun i => utf8Width c + i)

/-- Go `strings.IndexAny(s, chars)`: byte offset of the first character of `s` that belongs to
`chars`, or -1. -/
def IndexAny (s chars : Str) : Int :=
  match indexAny? s chars with
  | some i => (i : Int)
  | none => -1

/-- The characters of `s` that lie wholly within its first `n` bytes. -/
def takeBytes : Str → Nat → Str
  | [], _ => []
  | c :: cs, n => if utf8Width c ≤ n then c :: takeBytes cs (n - utf8Width c) else []

/-- Go slice expression `s[0:n]`: `none` stands for the run-time panic "slice bounds out of
range", raised when `n` is negative or exceeds `len(s)`.  (An offset inside a multi-byte
character does not occur: the scanner only slices at offsets returned by `IndexAny`.) -/
def sliceTo (s : Str) (n : Int) : Option Str :=
  if n < 0 then none
  else if (byteLen s : Int) < n then none
  else some (takeBytes s n.toNat)

/-- Go string comparison `a <= b` (bytewise lexicographic; on UTF-8 text, by code point). -/
def strLE : Str → Str → Bool
  | [], _ => true
  | _ :: _, [] => false
  | a :: as, b :: bs =>
    if a.toNat < b.toNat then true
    else if b.toNat < a.toNat then false
    else strLE as bs

/-- Go `sort.Sort(sort.StringSlice(xs))`: the strings in ascending order.  The order is total
and equal strings are indistinguishable, so the sorted arrangement is unique and every sorting
algorithm computes it (`sortStrings_unique`). -/
def sortStrings (xs : List Str) : List Str :=
  xs.insertionSort (fun a b => strLE a b = true)

/-- Go `strings.Join(elems, sep)`. -/
def Join (elems : List Str) (sep : Str) : Str :=
  sep.intercalate elems

/-- Go `bufio.Reader.ReadString` with delimiter newline on an in-memory input: the text up to
and including the first newline together with the unread rest, or `none` for the error `io.EOF`
when the input ends before a newline. -/
def ReadString : Str → Option (Str × Str)
  | [] => none
  | c :: cs =>
    if c = '\n' then some ([c], cs)
    else match ReadString cs with
      | some (l, rest) => some (c :: l, rest)
      | none => none

/-- The results of the successive calls of `ReadString` that succeed on `input`: its
newline-terminated lines, each with its newline (`readLines_eq`). -/
def readLines : Str → List Str
  | [] => []
  | c :: cs =>
    if c = '\n' then [c] :: readLines cs
    else match readLines cs with
      | [] => []
      | l :: ls => (c :: l) :: ls

/-! ## tag.go -/

/-- Go `type TagField string`. -/
abbrev TagField := Str

def Access : TagField := "access".toList
def Signature : TagField := "signature".toList
def TypeField : TagField := "type".toList
def PrimitiveType : TagField := "ptype".toList
def VMType : TagField := "vtype".toList
def DiskType : TagField := "dtype".toList
def NetworkType : TagField := "ntype".toList
def InstanceGroupType : TagField := "itype".toList
def AZType : TagField := "atype".toList
def JobType : TagField := "jtype".toList
def ReleaseType : TagField := "rtype".toList
def Line : TagField := "line".toList
def Language : TagField := "language".toList

/-- Go `type TagType string`; the zero value is the empty string. -/
abbrev TagType := Str

def Basic : TagType := "b".toList
def Primitive : TagType := "p".toList
def VM : TagType := "v".toList
def Disk : TagType := "d".toList
def Network : TagType := "n".toList
def AZ : TagType := "a".toList
def InstanceGroup : TagType := "i".toList
def Job : TagType := "j".toList
def Release : TagType := "r".toList
def Stemcell : TagType := "s".toList

/-- A Go `map[TagField]string`, as the list of its entries; `setField` keeps the keys unique.
The order of the list stands for the (unspecified) order in which `range` enumerates the map. -/
abbrev FieldMap := List (TagField × Str)

/-- Go `m[k] = v`. -/
def setField : FieldMap → TagField → Str → FieldMap
  | [], k, v => [(k, v)]
  | (k', v') :: rest, k, v =>
    if k' = k then (k, v) :: rest else (k', v') :: setField rest k v

/-- Go `v, ok := m[k]`. -/
def getField : FieldMap → TagField → Option Str
  | [], _ => none
  | (k', v') :: rest, k => if k' = k then some v' else getField rest k

/-- Go `type Tag struct`; the field `Type` is named `Typ` here. -/
structure Tag where
  Name : Str
  File : Str
  Address : Str
  Typ : TagType
  Fields : FieldMap
  deriving DecidableEq, Repr

/-- Go `NewTag`. -/
def NewTag (name file addr : Str) (line : Int) (tagType : TagType) : Tag :=
  let l := Itoa line
  { Name := name, File := file, Address := addr, Typ := tagType, Fields := [(Line, l)] }

/-- The strings collected by the loop of `Tag.String` over the map: `key:value` for every entry
whose value is not empty, in enumeration order. -/
def renderFields : FieldMap → List Str
  | [] => []
  | (k, v) :: rest =>
    if v.length = 0 then renderFields rest
    else (k ++ ":".toList ++ v) :: renderFields rest

/-- Go `func (t Tag) String() string`. -/
def Tag.String (t : Tag) : Str :=
  t.Name ++ ['\t'] ++ t.File ++ ['\t'] ++ t.Address ++ ";\"\t".toList ++ t.Typ ++ ['\t']
    ++ Join (sortStrings (renderFields t.Fields)) "\t".toList

/-! ## The regular expressions of parser.go

`sectionRegexp` is a fixed pattern and is modelled in full (`sectionMatch`).  The three other
patterns splice a run-time string into the pattern source:
`"^" + x + "[- ] name: (.*)"`, `"^" + x + "[- ] alias: (.*)"` and `"^" + x + "[- ] jobs:"`.
The spliced text is read by `regexp` as pattern syntax.  The spliced texts made of ordinary
characters, of `.` and of `(` are interpreted here (`MustCompile`).  For a spliced text holding
another character of the pattern syntax, what the package `regexp` does is a parameter of the
embedding: the field `regexp` of the parser configuration (`Library`), which `lineMatch`
consults.  A statement made for every parser configuration holds whatever the package does with
such a pattern. -/

/-- One position of a compiled pattern. -/
inductive Node
  | lit (c : Char)
  | anyChar
  | dashOrSpace
  deriving DecidableEq, Repr

/-- Whether a pattern position accepts a character: a literal accepts itself, `.` accepts every
character but the newline (no `s` flag is set), the class `[- ]` accepts a dash and a space. -/
def Node.accepts : Node → Char → Bool
  | Node.lit c, d => c == d
  | Node.anyChar, d => d != '\n'
  | Node.dashOrSpace, d => d == '-' || d == ' '

/-- Outcome of `regexp.MustCompile` on a spliced pattern, as far as the pattern is interpreted
here; `library` stands for a pattern that is left to the package (`Library`). -/
inductive Compiled
  | ok (nodes : List Node)
  | panics
  | library
  deriving DecidableEq, Repr

/-- The characters of the pattern syntax, other than `.` and `(`, that are not interpreted
here. -/
def uninterpreted : Str := "\\+*?)|[]{}^$".toList

/-- Go `regexp.MustCompile("^" + x + "[- ]" + key)`, where `key` is one of the fixed texts
` name: `, ` alias: `, ` jobs:` (ordinary characters only); a trailing `(.*)` of the pattern is
handled by `FindStringSubmatch`.
* `x` of ordinary characters and `.`: a literal per ordinary character, any-character per `.`;
* `x` with a `(` (and no uninterpreted character): the group opened by `(` is never closed, the
  pattern is rejected ("missing closing )") and `MustCompile` panics;
* otherwise: the pattern is left to the package (`Library`, `lineMatch`). -/
def MustCompile (x key : Str) : Compiled :=
  if x.any (fun c => decide (c ∈ uninterpreted)) then Compiled.library
  else if '(' ∈ x then Compiled.panics
  else Compiled.ok
    (x.map (fun c => if c = '.' then Node.anyChar else Node.lit c)
      ++ Node.dashOrSpace :: key.map Node.lit)

/-- Match of a sequence of pattern positions at the start of `s` (the patterns begin with `^`):
the text left after the match, or `none`. -/
def matchNodes : List Node → Str → Option Str
  | [], s => some s
  | _ :: _, [] => none
  | n :: ns, c :: cs => if n.accepts c then matchNodes ns cs else none

/-- The text captured by the group `(.*)`: greedy, and `.` stops at a newline. -/
def untilNewline (s : Str) : Str :=
  s.takeWhile (fun c => c != '\n')

/-- Go `re.FindStringSubmatch(line)` for a pattern `^ nodes (.*)`: `some sub` when
`len(lineMatch) > 0`, with `sub = lineMatch[1]`; `none` when there is no match. -/
def FindStringSubmatch (nodes : List Node) (line : Str) : Option Str :=
  match matchNodes nodes line with
  | some rest => some (untilNewline rest)
  | none => none

/-- Go `re.MatchString(line)` for a pattern `^ nodes`. -/
def MatchString (nodes : List Node) (line : Str) : Bool :=
  (matchNodes nodes line).isSome

/-- What the package `regexp` does with the source of a pattern.
* `compiles find`: `regexp.MustCompile` returns a matcher, and `find line` is the result of its
  `FindStringSubmatch(line)`: `none` when the result is empty (no match), `some (i, n)` when
  there is a match, the text of the first group (`lineMatch[1]`, a part of the line, the empty
  text for a group that took no part in the match) being the `n` characters of the line from
  position `i` on.  Its `MatchString(line)` is true exactly when `find line` is not `none`.
* `panics`: `regexp.MustCompile` panics.
* `unknown`: what the package does with this pattern is not described. -/
inductive Library
  | compiles (find : Str → Option (Nat × Nat))
  | panics
  | unknown

/-- The source of a spliced pattern: `"^" + x + "[- ]" + key`, with `(.*)` at its end for the
patterns that have the group. -/
def patternSource (x key : Str) (group : Bool) : Str :=
  "^".toList ++ x ++ "[- ]".toList ++ key ++ (if group then "(.*)".toList else [])

/-- Outcome of building a spliced pattern and applying it to a line. -/
inductive Found
  | found (sub : Str)
  | noMatch
  | panics
  | unknown
  deriving DecidableEq, Repr

/-- Go `lineRegexp := regexp.MustCompile("^" + x + "[- ]" + key + "(.*)")` followed by
`lineMatch := lineRegexp.FindStringSubmatch(line)` (`group = true`): `found sub` when
`len(lineMatch) > 0`, with `sub = lineMatch[1]`.  For the pattern without the group
(`group = false`) the compilation is followed by `lineRegexp.MatchString(line)`: `found []`
when it is true.  A pattern that is not interpreted here behaves as `regexp` describes. -/
def lineMatch (regexp : Str → Library) (x key : Str) (group : Bool) (line : Str) : Found :=
  match MustCompile x key with
  | Compiled.ok nodes =>
    if group then
      match FindStringSubmatch nodes line with
      | some sub => Found.found sub
      | none => Found.noMatch
    else if MatchString nodes line then Found.found [] else Found.noMatch
  | Compiled.panics => Found.panics
  | Compiled.library =>
    match regexp (patternSource x key group) with
    | Library.compiles find =>
      match find line with
      | some (i, n) => Found.found (if group then (line.drop i).take n else [])
      | none => Found.noMatch
    | Library.panics => Found.panics
    | Library.unknown => Found.unknown

/-- Text of `s` after its leading `p`, when `s` starts with `p`. -/
def afterPrefix? : Str → Str → Option Str
  | [], s => some s
  | _ :: _, [] => none
  | a :: p, c :: s => if a = c then afterPrefix? p s else none

/-- The alternatives of the first group of `sectionRegexp`, in the order of the pattern. -/
def sectionKeywords : List Str :=
  ["name".toList, "director_uuid".toList, "vm_types".toList, "resource_pools".toList,
   "disk_types".toList, "disk_pools".toList, "networks".toList, "azs".toList,
   "update".toList, "compilation".toList, "instance_groups".toList, "releases".toList,
   "stemcells".toList]

/-- The text matched by ` ?(.*)` is the whole rest up to the newline; the optional space is
greedy, so a space that follows the colon belongs to it and not to the group. -/
def afterColon (rest : Str) : Str :=
  match rest with
  | ' ' :: r => untilNewline r
  | _ => untilNewline rest

/-- Leftmost-first choice among the alternatives `kws`: the first keyword that is followed by a
colon at the start of the line. -/
def firstKeyword : List Str → Str → Option (Str × Str)
  | [], _ => none
  | kw :: kws, line =>
    match afterPrefix? (kw ++ [':']) line with
    | some rest => some (kw, afterColon rest)
    | none => firstKeyword kws line

/-- Go `sectionRegexp.FindStringSubmatch(line)` for the pattern
`^(name|director_uuid|...|stemcells): ?(.*)`: `some (sectionMatch[1], sectionMatch[2])` when
`len(sectionMatch) > 0`. -/
def sectionMatch (line : Str) : Option (Str × Str) :=
  firstKeyword sectionKeywords line

/-! ## parser.go -/

/-- Go `type tagParser struct`, without the accumulated `tags` (threaded through `loop`) and the
unused `types`.  `createTag` calls `filepath.Abs(file)` and `filepath.Rel(basepath, abs)`, which
depend on the file system; `rel` is their combined result, `none` when either call fails.
`regexp` is the package `regexp` the scanner runs with: what it does with the source of a
spliced pattern that is not interpreted here. -/
structure tagParser where
  file : Str
  relative : Bool
  rel : Option Str
  regexp : Str → Library

/-- Go `func (p *tagParser) createTag`. -/
def createTag (p : tagParser) (name addr : Str) (line : Int) (tagType : TagType) : Tag :=
  let f := if p.relative then (match p.rel with | some r => r | none => p.file) else p.file
  NewTag name f addr line tagType

/-- The local variables of `parse` that live across the iterations of its loop (`prefix` is
named `pfx`). -/
structure parseState where
  currentSection : TagType
  currentPrimitive : Str
  currentInstanceGroup : Str
  pfx : Str
  jobsPrefix : Str
  inStemcells : Bool
  deriving DecidableEq, Repr

/-- The values of the local variables when the loop is entered. -/
def initialState : parseState :=
  { currentSection := [], currentPrimitive := [], currentInstanceGroup := [], pfx := [],
    jobsPrefix := "####".toList, inStemcells := false }

/-- Go `fmt.Sprintf("/\\%%%dl\\%%%dc/", lineNum, col)`. -/
def address (lineNum col : Int) : Str :=
  "/\\%".toList ++ Itoa lineNum ++ "l\\%".toList ++ Itoa col ++ "c/".toList

/-- The second argument of the two calls of `strings.IndexAny`. -/
def classChars : Str := "-abcdefghijklmnopqrstuvwxyz".toList

/-- The `switch name` of the section rule together with the `inStemcells = false` before it:
the new `currentSection`, the (possibly rewritten) `name` and the new `inStemcells`. -/
def switchSection (name : Str) (currentSection : TagType) : TagType × Str × Bool :=
  if name = "vm_types".toList then (VM, name, false)
  else if name = "resource_pools".toList then (VM, "vm_types".toList, false)
  else if name = "disk_types".toList then (Disk, name, false)
  else if name = "disk_pools".toList then (Disk, "disk_types".toList, false)
  else if name = "networks".toList then (Network, name, false)
  else if name = "azs".toList then (AZ, name, false)
  else if name = "instance_groups".toList then (InstanceGroup, name, false)
  else if name = "releases".toList then (Release, name, false)
  else if name = "stemcells".toList then (Stemcell, name, true)
  else (currentSection, name, false)

/-- Lines 104-111: the new value of `prefix` after a section header; the outer `none` is the
panic of the slice expression. -/
def sectionPrefix (old : Str) (nextLine : Option Str) : Option Str :=
  match nextLine with
  | some nl =>
    let index := IndexAny nl classChars
    if index > 0 then sliceTo nl index else some []
  | none => some old

/-- Lines 171-174: the new value of `jobsPrefix` after a jobs-list introducer; `none` is the
panic of the slice expression. -/
def jobsListPrefix (old : Str) (nextLine : Option Str) : Option Str :=
  match nextLine with
  | some nl =>
    let index := IndexAny nl classChars
    sliceTo nl index
  | none => some old

/-- What one iteration of the loop does with its line: it reaches a `continue` or the end of
the body with new values of the local variables and at most one appended tag, or it panics;
`unknown` when it builds a pattern for which `p.regexp` gives no description. -/
inductive Step
  | continues (st : parseState) (emitted : Option Tag)
  | panics
  | unknown
  deriving DecidableEq, Repr

/-- Lines 76-127: the section rule, for a line on which `sectionRegexp` matched with groups
`kw` and `trailing`. -/
def sectionRule (p : tagParser) (st : parseState) (lineNum : Int) (line : Str)
    (nextLine : Option Str) (kw trailing : Str) : Step :=
  let sw := switchSection kw st.currentSection
  let name := sw.2.1
  match sectionPrefix st.pfx nextLine with
  | none => Step.panics
  | some newPfx =>
    let addr := address lineNum (Index line name + 1)
    let tag := createTag p name addr lineNum Primitive
    let tag := { tag with Fields := setField tag.Fields TypeField "section".toList }
    let tag :=
      if name = "name".toList then
        { tag with Typ := Basic, Fields := setField tag.Fields TypeField trailing }
      else tag
    let tag :=
      if name = "director_uuid".toList then
        { tag with Typ := Basic, Fields := setField tag.Fields TypeField trailing }
      else tag
    Step.continues
      { st with currentSection := sw.1, inStemcells := sw.2.2, pfx := newPfx,
                currentPrimitive := name }
      (some tag)

/-- Lines 132-141 and 145-154: the tag of a list item and the state after it. -/
def itemRule (p : tagParser) (st : parseState) (lineNum : Int) (line name : Str) : Step :=
  let addr := address lineNum (Index line name + 1)
  let tag := createTag p name addr lineNum st.currentSection
  let tag := { tag with Fields := setField tag.Fields PrimitiveType st.currentPrimitive }
  let tag := { tag with Fields := setField tag.Fields TypeField st.currentPrimitive }
  Step.continues { st with currentInstanceGroup := name } (some tag)

/-- Lines 159-167: the tag of a job. -/
def jobRule (p : tagParser) (st : parseState) (lineNum : Int) (line name : Str) : Step :=
  let addr := address lineNum (Index line name + 1)
  let tag := createTag p name addr lineNum Job
  let itype := st.currentPrimitive ++ ".".toList ++ st.currentInstanceGroup
  let tag := { tag with Fields := setField tag.Fields InstanceGroupType itype }
  let tag := { tag with Fields := setField tag.Fields TypeField "job".toList }
  Step.continues st (some tag)

/-- Lines 169-176: the jobs-list introducer rule and the end of the loop body. -/
def jobsListRule (p : tagParser) (st : parseState) (line : Str) (nextLine : Option Str) :
    Step :=
  match lineMatch p.regexp st.pfx " jobs:".toList false line with
  | Found.panics => Step.panics
  | Found.unknown => Step.unknown
  | Found.found _ =>
    match jobsListPrefix st.jobsPrefix nextLine with
    | none => Step.panics
    | some newJobsPrefix => Step.continues { st with jobsPrefix := newJobsPrefix } none
  | Found.noMatch => Step.continues st none

/-- Lines 157-176: the job rule, then the jobs-list introducer rule. -/
def jobOrJobsList (p : tagParser) (st : parseState) (lineNum : Int) (line : Str)
    (nextLine : Option Str) : Step :=
  match lineMatch p.regexp st.jobsPrefix " name: ".toList true line with
  | Found.panics => Step.panics
  | Found.unknown => Step.unknown
  | Found.found name => jobRule p st lineNum line name
  | Found.noMatch => jobsListRule p st line nextLine

/-- Lines 76-176: the body of the loop of `parse` from the first pattern on, for the line
`line`, its number `lineNum` and the lookahead `nextLine`. -/
def processLine (p : tagParser) (st : parseState) (lineNum : Int) (line : Str)
    (nextLine : Option Str) : Step :=
  match sectionMatch line with
  | some (kw, trailing) => sectionRule p st lineNum line nextLine kw trailing
  | none =>
    match lineMatch p.regexp st.pfx
        (if st.inStemcells then " alias: ".toList else " name: ".toList) true line with
    | Found.panics => Step.panics
    | Found.unknown => Step.unknown
    | Found.found name => itemRule p st lineNum line name
    | Found.noMatch => jobOrJobsList p st lineNum line nextLine

/-- How a scan ended: the function returned or the process panicked; `unknown` when the scan
built a pattern for which `p.regexp` gives no description (never, when it describes every
pattern, as the package itself does). -/
inductive Ending
  | returned
  | panicked
  | unknown
  deriving DecidableEq, Repr

/-- The tags appended to `p.tags` when the scan ended, and how it ended. -/
structure Scan where
  tags : List Tag
  ending : Ending
  deriving DecidableEq, Repr

/-- Lines 61-177: the loop of `parse`.  `line` is `*nextLine` on entry of an iteration whose
`lineNum++` gives `lineNum`, `tags` is `p.tags`, and `reads` are the results still to come from
the successful calls of `ReadString`.  When no read is left, `ReadString` returns `io.EOF`:
line 68 sets `nextLine = nil` and line 71 returns, before the pending `line` reaches the
patterns.  Otherwise the lookahead is set (line 75), so `nextLine` is never nil in the body. -/
def loop (p : tagParser) :
    parseState → Int → List Tag → Str → List Str → Scan
  | _, _, tags, _, [] => { tags := tags, ending := Ending.returned }
  | st, lineNum, tags, line, nl :: reads =>
    match processLine p st lineNum line (some nl) with
    | Step.continues st' emitted => loop p st' (lineNum + 1) (tags ++ emitted.toList) nl reads
    | Step.panics => { tags := tags, ending := Ending.panicked }
    | Step.unknown => { tags := tags, ending := Ending.unknown }

/-- Go `func (p *tagParser) parse`, on the content `input` of the reader (an in-memory reader
fails with `io.EOF` only). -/
def parse (p : tagParser) (input : Str) : Scan :=
  match readLines input with
  | [] => { tags := [], ending := Ending.returned }
  | nl :: reads => loop p initialState 1 [] nl reads

/-- Go `func Parse`, for a file that `os.Open` opens and whose content is `input`: the tags it
returns, or `none` when it does not return (a panic) or when the scan built a pattern for
which `p.regexp` gives no description. -/
def Parse (p : tagParser) (input : Str) : Option (List Tag) :=
  match parse p input with
  | { tags := tags, ending := Ending.returned } => some tags
  | _ => none

/-! ## Definitions used by the statements -/

/-- The serialized line as the specification words it: the five fixed parts ending with the
kind code, then one group `TAB key:value` per string of `groups`. -/
def claimedLine (t : Tag) (groups : List Str) : Str :=
  t.Name ++ "\t".toList ++ t.File ++ "\t".toList ++ t.Address ++ ";\"".toList ++ "\t".toList
    ++ t.Typ ++ (groups.map (fun g => "\t".toList ++ g)).flatten

/-- The rendered `key:value` strings of the attributes of `t` whose value is not empty. -/
def nonEmptyPairs (t : Tag) : List Str :=
  (t.Fields.filter (fun kv => decide (kv.2 ≠ []))).map (fun kv => kv.1 ++ ":".toList ++ kv.2)

/-- A tag record whose only attribute has an empty value. -/
def bareTag : Tag :=
  { Name := "web".toList, File := "m.yml".toList, Address := "/\\%2l\\%9c/".toList,
    Typ := InstanceGroup, Fields := [(TypeField, [])] }

/-- The text of a line that precedes its first character of the class
`-abcdefghijklmnopqrstuvwxyz` (the whole line when it has none). -/
def leadingRun (s : Str) : Str :=
  s.takeWhile (fun c => !decide (c ∈ classChars))

/-- Whether a line holds a character of the class `-abcdefghijklmnopqrstuvwxyz`. -/
def hasClassChar (s : Str) : Bool :=
  s.any (fun c => decide (c ∈ classChars))

/-- The parser configuration of the examples: the manifest is `manifest.yml`, file names are
kept as given, and nothing is said of the package `regexp`: the scans of the examples build
interpreted patterns only. -/
def manifest : tagParser :=
  { file := "manifest.yml".toList, relative := false, rel := none,
    regexp := fun _ => Library.unknown }

/-- The section keywords other than `name` and `director_uuid`. -/
def primitiveKeywords : List Str :=
  ["vm_types".toList, "resource_pools".toList, "disk_types".toList, "disk_pools".toList,
   "networks".toList, "azs".toList, "update".toList, "compilation".toList,
   "instance_groups".toList, "releases".toList, "stemcells".toList]

/-- The characters with a meaning in the pattern syntax of `regexp`. -/
def metaChars : Str := "\\.+*?()|[]{}^$".toList

/-- The text that follows the first colon of a line, up to but excluding the newline. -/
def textAfterColon (line : Str) : Str :=
  untilNewline ((line.dropWhile (fun c => c != ':')).drop 1)

/-- Removal of one space at the start of a text (the ` ?` of `sectionRegexp`). -/
def dropOneSpace (s : Str) : Str :=
  if s.head? = some ' ' then s.tail else s

/-- The two section keywords whose value is a scalar. -/
def scalarKeywords : List Str := ["name".toList, "director_uuid".toList]

/-- Reading of a tag sequence for the job rule: `P` is the name of the most recent header tag
(kind `p` or `b`) and `G` the name of the most recent list-item tag (any kind but `p`, `b` and
`j`) before the current position, both empty at the start; every job tag must carry the `type`
`job` and the `itype` `P.G`. -/
def jobsQualified : Str → Str → List Tag → Prop
  | _, _, [] => True
  | P, G, t :: ts =>
    if t.Typ = Job then
      (getField t.Fields TypeField = some "job".toList
        ∧ getField t.Fields InstanceGroupType = some (P ++ ".".toList ++ G))
      ∧ jobsQualified P G ts
    else if t.Typ = Primitive ∨ t.Typ = Basic then jobsQualified t.Name G ts
    else jobsQualified P t.Name ts

/-- The names `(P, G)` reached at the end of a tag sequence read as in `jobsQualified`. -/
def lastNames : Str → Str → List Tag → Str × Str
  | P, G, [] => (P, G)
  | P, G, t :: ts =>
    if t.Typ = Job then lastNames P G ts
    else if t.Typ = Primitive ∨ t.Typ = Basic then lastNames t.Name G ts
    else lastNames P t.Name ts

/-- The kinds `currentSection` can hold: the zero value and the seven kinds the switch
assigns. -/
def sectionKinds : List TagType := [[], VM, Disk, Network, AZ, InstanceGroup, Release, Stemcell]

/-- The two deprecated section keywords, which the switch rewrites. -/
def aliasedKeywords : List Str := ["resource_pools".toList, "disk_pools".toList]

/-- Whether a line is the header of a section with a deprecated keyword. -/
def isAliasedHeader (line : Str) : Bool :=
  match sectionMatch line with
  | some (kw, _) => decide (kw ∈ aliasedKeywords)
  | none => false

/-! ## Definitions used by the statements about attributes, kinds and scan points -/

/-- Go `delete(m, k)`. -/
def deleteField : FieldMap → TagField → FieldMap
  | [], _ => []
  | (k', v') :: rest, k => if k' = k then rest else (k', v') :: deleteField rest k

/-- The fixed part of a serialized line: name, TAB, file, TAB, address, the marker, TAB, the
kind code and the TAB after it. -/
def lineHead (t : Tag) : Str :=
  t.Name ++ "\t".toList ++ t.File ++ "\t".toList ++ t.Address ++ ";\"".toList ++ "\t".toList
    ++ t.Typ ++ "\t".toList

/-- The rendering `key:value` of one attribute. -/
def renderPair (kv : TagField × Str) : Str :=
  kv.1 ++ ":".toList ++ kv.2

/-- A list-item tag, its attributes enumerated in the order of insertion. -/
def tagLineFirst : Tag :=
  { Name := "web".toList, File := "manifest.yml".toList, Address := "/\\%2l\\%9c/".toList,
    Typ := InstanceGroup,
    Fields := [(Line, "2".toList), (PrimitiveType, "instance_groups".toList),
               (TypeField, "instance_groups".toList)] }

/-- The tag `tagLineFirst` with its attributes enumerated in the opposite order. -/
def tagLineLast : Tag :=
  { Name := "web".toList, File := "manifest.yml".toList, Address := "/\\%2l\\%9c/".toList,
    Typ := InstanceGroup,
    Fields := [(TypeField, "instance_groups".toList),
               (PrimitiveType, "instance_groups".toList), (Line, "2".toList)] }

/-- The thirteen keys declared in tag.go. -/
def declaredKeys : List TagField :=
  [Access, Signature, TypeField, PrimitiveType, VMType, DiskType, NetworkType,
   InstanceGroupType, AZType, JobType, ReleaseType, Line, Language]

/-- The entries of a map whose value is not empty. -/
def nonEmptyEntries (fs : FieldMap) : FieldMap :=
  fs.filter (fun kv => decide (kv.2 ≠ []))

/-- The entries of a map in ascending order of their keys. -/
def sortByKey (fs : FieldMap) : FieldMap :=
  fs.insertionSort (fun a b => strLE a.1 b.1 = true)

/-- The tag `t` is produced by line number `m` (1-based) of `lines`: that line, processed with
the number `m` and with the next line as lookahead, in some state, emits `t`. -/
def producedBy (p : tagParser) (lines : List Str) (t : Tag) (m : Nat) : Prop :=
  1 ≤ m ∧ ∃ st st' line nl, lines.get? (m - 1) = some line ∧ lines.get? m = some nl
    ∧ processLine p st (m : Int) line (some nl) = Step.continues st' (some t)

/-- The names a header tag can carry: the section keywords, a deprecated one replaced by its
modern form. -/
def storedKeywords : List Str :=
  ["name".toList, "director_uuid".toList, "vm_types".toList, "disk_types".toList,
   "networks".toList, "azs".toList, "update".toList, "compilation".toList,
   "instance_groups".toList, "releases".toList, "stemcells".toList]

/-- The ten kinds declared in tag.go. -/
def declaredKinds : List TagType :=
  [Basic, Primitive, VM, Disk, Network, AZ, InstanceGroup, Job, Release, Stemcell]

/-- The key of the list-item pattern: ` alias: ` inside the stemcells section, ` name: `
elsewhere. -/
def itemKey (st : parseState) : Str :=
  if st.inStemcells then " alias: ".toList else " name: ".toList

/-- Whether the list-item rule recognizes a line in a state: its pattern, built from the item
prefix and the key, compiles and matches the line. -/
def recognizedAsItem (p : tagParser) (st : parseState) (line : Str) : Bool :=
  match lineMatch p.regexp st.pfx (itemKey st) true line with
  | Found.found _ => true
  | Found.noMatch => false
  | Found.panics => false
  | Found.unknown => false

/-- A point of a scan, on entry of an iteration of the loop: the local variables, the keywords
(`sectionMatch[1]`) of the section headers processed so far, in the order of the lines, and the
tags appended so far. -/
structure ScanPoint where
  state : parseState
  headers : List Str
  tags : List Tag
  deriving DecidableEq, Repr

/-- The keywords of the processed section headers once `line` is processed. -/
def headersAfter (hs : List Str) (line : Str) : List Str :=
  match sectionMatch line with
  | some (kw, _) => hs ++ [kw]
  | none => hs

/-- The points a run of `loop` passes through, in order: the entry of each iteration, the last
one being the iteration that returns or does not continue. -/
def loopPoints (p : tagParser) :
    parseState → List Str → Int → List Tag → Str → List Str → List ScanPoint
  | st, hs, _, tags, _, [] => [{ state := st, headers := hs, tags := tags }]
  | st, hs, lineNum, tags, line, nl :: reads =>
    { state := st, headers := hs, tags := tags } ::
      match processLine p st lineNum line (some nl) with
      | Step.continues st' emitted =>
        loopPoints p st' (headersAfter hs line) (lineNum + 1) (tags ++ emitted.toList) nl reads
      | Step.panics => []
      | Step.unknown => []

/-- The points the scan of `input` passes through. -/
def scanPoints (p : tagParser) (input : Str) : List ScanPoint :=
  match readLines input with
  | [] => [{ state := initialState, headers := [], tags := [] }]
  | nl :: reads => loopPoints p initialState [] 1 [] nl reads

/-- One iteration of the loop that reaches a `continue` or the end of the body: the number of
its line, the line, the lookahead, the point on entry of the iteration, and the tag the
iteration appends, if it appends one. -/
structure ScanStep where
  lineNum : Int
  line : Str
  next : Str
  point : ScanPoint
  emitted : Option Tag
  deriving DecidableEq, Repr

/-- The iterations a run of `loop` completes, in order. -/
def loopSteps (p : tagParser) :
    parseState → List Str → Int → List Tag → Str → List Str → List ScanStep
  | _, _, _, _, _, [] => []
  | st, hs, lineNum, tags, line, nl :: reads =>
    match processLine p st lineNum line (some nl) with
    | Step.continues st' emitted =>
      { lineNum := lineNum, line := line, next := nl,
        point := { state := st, headers := hs, tags := tags }, emitted := emitted } ::
        loopSteps p st' (headersAfter hs line) (lineNum + 1) (tags ++ emitted.toList) nl reads
    | Step.panics => []
    | Step.unknown => []

/-- The iterations the scan of `input` completes, in order. -/
def scanSteps (p : tagParser) (input : Str) : List ScanStep :=
  match readLines input with
  | [] => []
  | nl :: reads => loopSteps p initialState [] 1 [] nl reads

/-- The three rules that append a tag. -/
inductive Rule
  | header
  | item
  | job
  deriving DecidableEq, Repr

/-- The rule that takes a line in a state, in the order of the loop body: the section rule when
`sectionRegexp` matches; else the list-item rule when its pattern matches; else the job rule
when its pattern matches; `none` when none of the three takes the line. -/
def firedRule (p : tagParser) (st : parseState) (line : Str) : Option Rule :=
  match sectionMatch line with
  | some _ => some Rule.header
  | none =>
    match lineMatch p.regexp st.pfx (itemKey st) true line with
    | Found.found _ => some Rule.item
    | Found.noMatch =>
      match lineMatch p.regexp st.jobsPrefix " name: ".toList true line with
      | Found.found _ => some Rule.job
      | Found.noMatch => none
      | Found.panics => none
      | Found.unknown => none
    | Found.panics => none
    | Found.unknown => none

/-- The kind a section keyword assigns to `currentSection`, for the nine keywords that assign
one. -/
def assignedKind (kw : Str) : Option TagType :=
  if kw = "vm_types".toList ∨ kw = "resource_pools".toList then some VM
  else if kw = "disk_types".toList ∨ kw = "disk_pools".toList then some Disk
  else if kw = "networks".toList then some Network
  else if kw = "azs".toList then some AZ
  else if kw = "instance_groups".toList then some InstanceGroup
  else if kw = "releases".toList then some Release
  else if kw = "stemcells".toList then some Stemcell
  else none

/-- The kind assigned by the most recent of the headers `hs` that assigns one; the empty kind
when none of them does. -/
def kindAfter (hs : List Str) : TagType :=
  ((hs.filterMap assignedKind).getLast?).getD []

/-- The package `regexp` on the pattern `^|[- ] name: (.*)`, an alternation whose first branch
`^` matches the empty text at the start of every line: every line is matched, and the group,
which stands in the other branch, takes no part in the match. -/
def alternationOnly : Str → Library :=
  fun source =>
    if source = "^|[- ] name: (.*)".toList then Library.compiles (fun _ => some (0, 0))
    else Library.unknown

/-- The keywords (`sectionMatch[1]`) of the section headers among `lines`, in order. -/
def headersOf (lines : List Str) : List Str :=
  lines.filterMap (fun l => (sectionMatch l).map Prod.fst)

/-- The step `s` is the iteration that processes line number `s.lineNum` of `lines`: its line
and its lookahead are that line and the one after it, the headers of its point are the
keywords of the section headers among the lines before it, and what it appends is what
`processLine` emits in the state of its point. -/
def isStepOf (p : tagParser) (lines : List Str) (s : ScanStep) : Prop :=
  ∃ k : Nat, s.lineNum = ((k + 1 : Nat) : Int)
    ∧ lines.get? k = some s.line ∧ lines.get? (k + 1) = some s.next
    ∧ s.point.headers = headersOf (lines.take k)
    ∧ ∃ st', processLine p s.point.state s.lineNum s.line (some s.next)
        = Step.continues st' s.emitted

/-- The match of `^  <<: *[- ]` followed by a key that starts with a space, at the start of a
line: the text left after the match.  ` *` stands for any number of spaces, so the line starts
with `  <<:` and goes on either with any number of spaces, a `-` and the key, or with at least
two spaces, the last of which is the first character of the key, and the rest of the key. -/
def afterMergeKey (key line : Str) : Option Str :=
  match afterPrefix? "  <<:".toList line with
  | none => none
  | some r =>
    let run := r.takeWhile (fun c => c == ' ')
    let rest := r.dropWhile (fun c => c == ' ')
    match afterPrefix? ('-' :: key) rest with
    | some cap => some cap
    | none => if 2 ≤ run.length then afterPrefix? key.tail rest else none

/-- The package `regexp` on the two patterns spliced from the prefix `  <<: *`, the text before
the first lowercase letter of a line `  <<: *default`: `^  <<: *[- ] name: (.*)`, whose group
captures the rest of the line up to the newline, and `^  <<: *[- ] jobs:`. -/
def mergeKeyOnly : Str → Library :=
  fun source =>
    if source = "^  <<: *[- ] name: (.*)".toList then
      Library.compiles (fun line =>
        (afterMergeKey " name: ".toList line).map
          (fun cap => (line.length - cap.length, (untilNewline cap).length)))
    else if source = "^  <<: *[- ] jobs:".toList then
      Library.compiles (fun line => (afterMergeKey " jobs:".toList line).map (fun _ => (0, 0)))
    else Library.unknown

/-! ## Facts about the library functions and the tag record -/

theorem toNat_inj {a b : Char} (h : a.toNat = b.toNat) : a = b := by
  apply Char.ext
  apply UInt32.ext
  exact h

theorem strLE_refl (a : Str) : strLE a a = true := by
  induction a with
  | nil => rfl
  | cons c cs ih => simp [strLE, ih]

theorem strLE_total (a b : Str) : strLE a b = true ∨ strLE b a = true := by
  induction a generalizing b with
  | nil => exact Or.inl rfl
  | cons c cs ih =>
    cases b with
    | nil => exact Or.inr rfl
    | cons d ds =>
      rcases Nat.lt_trichotomy c.toNat d.toNat with h | h | h
      · left; simp [strLE, h]
      · have hcd : c = d := toNat_inj h
        subst hcd
        simpa [strLE] using ih ds
      · right; simp [strLE, h]

theorem strLE_trans {a b c : Str} (hab : strLE a b = true) (hbc : strLE b c = true) :
    strLE a c = true := by
  induction a generalizing b c with
  | nil => rfl
  | cons x xs ih =>
    cases b with
    | nil => simp [strLE] at hab
    | cons y ys =>
      cases c with
      | nil => simp [strLE] at hbc
      | cons z zs =>
        simp only [strLE] at hab hbc ⊢
        by_cases hxy : x.toNat < y.toNat
        · by_cases hyz : y.toNat < z.toNat
          · have : x.toNat < z.toNat := by omega
            simp [this]
          · by_cases hzy : z.toNat < y.toNat
            · simp [hyz, hzy] at hbc
            · have : x.toNat < z.toNat := by omega
              simp [this]
        · by_cases hyx : y.toNat < x.toNat
          · simp [hxy, hyx] at hab
          · simp only [hxy, hyx, if_false] at hab
            by_cases hyz : y.toNat < z.toNat
            · have : x.toNat < z.toNat := by omega
              simp [this]
            · by_cases hzy : z.toNat < y.toNat
              · simp [hyz, hzy] at hbc
              · simp only [hyz, hzy, if_false] at hbc
                have h1 : ¬ x.toNat < z.toNat := by omega
                have h2 : ¬ z.toNat < x.toNat := by omega
                simp only [h1, h2, if_false]
                exact ih hab hbc

theorem strLE_antisymm {a b : Str} (hab : strLE a b = true) (hba : strLE b a = true) :
    a = b := by
  induction a generalizing b with
  | nil =>
    cases b with
    | nil => rfl
    | cons d ds => simp [strLE] at hba
  | cons c cs ih =>
    cases b with
    | nil => simp [strLE] at hab
    | cons d ds =>
      simp only [strLE] at hab hba
      by_cases hcd : c.toNat < d.toNat
      · have : ¬ d.toNat < c.toNat := by omega
        simp [hcd, this] at hba
      · by_cases hdc : d.toNat < c.toNat
        · simp [hcd, hdc] at hab
        · simp only [hcd, hdc, if_false] at hab hba
          have h : c = d := toNat_inj (by omega)
          rw [h, ih hab hba]

theorem sortStrings_perm (xs : List Str) : (sortStrings xs).Perm xs :=
  List.perm_insertionSort _ xs

theorem sortStrings_sorted (xs : List Str) :
    (sortStrings xs).Sorted (fun a b => strLE a b = true) :=
  @List.sorted_insertionSort _ _ _ ⟨strLE_total⟩
    ⟨fun _ _ _ hab hbc => strLE_trans hab hbc⟩ xs

/-- The ascending arrangement of a list of strings is unique: whatever algorithm `sort.Sort`
runs, its result is `sortStrings xs`. -/
theorem sortStrings_unique (xs ys : List Str) (hp : ys.Perm xs)
    (hs : ys.Sorted (fun a b => strLE a b = true)) : ys = sortStrings xs :=
  @List.eq_of_perm_of_sorted _ _ ⟨fun _ _ hab hba => strLE_antisymm hab hba⟩ _ _
    (hp.trans (sortStrings_perm xs).symm) hs (sortStrings_sorted xs)

/-- `readLines` lists the results of the successive successful calls of `ReadString`. -/
theorem readLines_eq (s : Str) :
    readLines s = match ReadString s with
      | some (l, rest) => l :: readLines rest
      | none => [] := by
  induction s with
  | nil => rfl
  | cons c cs ih =>
    by_cases hc : c = '\n'
    · simp [readLines, ReadString, hc]
    · simp only [readLines, ReadString, hc, if_false]
      rw [ih]
      cases ReadString cs with
      | none => rfl
      | some lr => rfl

theorem renderFields_eq (fs : FieldMap) :
    renderFields fs
      = (fs.filter (fun kv => decide (kv.2 ≠ []))).map (fun kv => kv.1 ++ ":".toList ++ kv.2) := by
  induction fs with
  | nil => rfl
  | cons kv rest ih =>
    obtain ⟨k, v⟩ := kv
    cases v with
    | nil => simp [renderFields, ih]
    | cons c cs => simp [renderFields, ih]

/-- When a tag has an attribute with a non-empty value (every tag built by `NewTag` has its
`line`), the line is the one the specification words. -/
theorem String_eq_claimedLine (t : Tag) (h : nonEmptyPairs t ≠ []) :
    t.String = claimedLine t (sortStrings (nonEmptyPairs t)) := by
  have hne : sortStrings (nonEmptyPairs t) ≠ [] := by
    intro h0
    have := (sortStrings_perm (nonEmptyPairs t)).symm
    rw [h0] at this
    exact h (List.Perm.eq_nil this)
  have key : ∀ gs : List Str, gs ≠ [] →
      "\t".toList ++ (gs.intersperse "\t".toList).flatten
        = (gs.map (fun g => "\t".toList ++ g)).flatten := by
    intro gs
    induction gs with
    | nil => intro h; exact absurd rfl h
    | cons g rest ih =>
      intro _
      cases rest with
      | nil => simp
      | cons g' rest' =>
        have h2 := ih (by simp)
        simp only [List.intersperse, List.flatten_cons, List.map_cons, List.append_assoc]
          at h2 ⊢
        rw [h2]
  have hk := key _ hne
  have hr : renderFields t.Fields = nonEmptyPairs t := renderFields_eq t.Fields
  simp only [Tag.String, claimedLine, Join, List.intercalate, hr, List.append_assoc]
  rw [← hk]
  rfl

/-! ## Facts about the rules of the scanner -/

theorem utf8Width_pos (c : Char) : 0 < utf8Width c := by
  unfold utf8Width
  split_ifs <;> omega

theorem indexAny?_eq_none (s chars : Str) :
    indexAny? s chars = none ↔ ∀ c ∈ s, c ∉ chars := by
  induction s with
  | nil => simp [indexAny?]
  | cons c cs ih =>
    by_cases hc : c ∈ chars
    · simp [indexAny?, hc]
    · simp [indexAny?, hc, ih]

theorem indexAny?_some (s chars : Str) (i : Nat) (h : indexAny? s chars = some i) :
    i = byteLen (s.takeWhile (fun c => !decide (c ∈ chars))) ∧ i ≤ byteLen s
      ∧ takeBytes s i = s.takeWhile (fun c => !decide (c ∈ chars)) := by
  induction s generalizing i with
  | nil => simp [indexAny?] at h
  | cons c cs ih =>
    by_cases hc : c ∈ chars
    · simp only [indexAny?, hc, if_true, Option.some.injEq] at h
      subst h
      have := utf8Width_pos c
      simp [List.takeWhile, hc, byteLen, takeBytes]
      omega
    · simp only [indexAny?, hc, if_false, Option.map_eq_some'] at h
      obtain ⟨j, hj, rfl⟩ := h
      obtain ⟨h1, h2, h3⟩ := ih j hj
      refine ⟨?_, ?_, ?_⟩
      · simp [List.takeWhile, hc, byteLen, ← h1]
      · simp [byteLen, h2]
      · simp [List.takeWhile, hc, takeBytes, h3]

theorem hasClassChar_false (s : Str) : hasClassChar s = false ↔ ∀ c ∈ s, c ∉ classChars := by
  simp [hasClassChar]

/-- The slice `s[0:IndexAny(s, class)]` is the text before the first character of the class,
and panics when the line has no character of the class. -/
theorem sliceTo_IndexAny (s : Str) :
    sliceTo s (IndexAny s classChars) = if hasClassChar s then some (leadingRun s) else none := by
  cases h : indexAny? s classChars with
  | none =>
    have h' := (indexAny?_eq_none s classChars).1 h
    have hf : hasClassChar s = false := (hasClassChar_false s).2 h'
    simp [IndexAny, h, sliceTo, hf]
  | some i =>
    obtain ⟨_, h2, h3⟩ := indexAny?_some s classChars i h
    have ht : hasClassChar s = true := by
      by_contra hn
      have hf : hasClassChar s = false := by simpa using hn
      have := (indexAny?_eq_none s classChars).2 ((hasClassChar_false s).1 hf)
      rw [h] at this
      exact Option.noConfusion this
    have hlt : ¬ ((byteLen s : Int) < (i : Int)) := by omega
    simp [IndexAny, h, sliceTo, ht, hlt, h3, leadingRun]

/-- Lines 104-111 never panic: the new item prefix is the text of the lookahead before its first
character of the class, and the empty string when the lookahead has no such character. -/
theorem sectionPrefix_some (old nl : Str) :
    sectionPrefix old (some nl) = some (if hasClassChar nl then leadingRun nl else []) := by
  unfold sectionPrefix
  simp only []
  split_ifs with h1 h2 h2
  · rw [sliceTo_IndexAny, h2]; rfl
  · exfalso
    cases h : indexAny? nl classChars with
    | none => simp [IndexAny, h] at h1
    | some i =>
      have := (indexAny?_eq_none nl classChars).not.1 (by rw [h]; simp)
      have ht : hasClassChar nl = true := by
        by_contra hn
        have hf : hasClassChar nl = false := by simpa using hn
        exact this ((hasClassChar_false nl).1 hf)
      exact h2 ht
  · cases h : indexAny? nl classChars with
    | none =>
      have hf := (hasClassChar_false nl).2 ((indexAny?_eq_none nl classChars).1 h)
      rw [hf] at h2
      exact absurd h2 (by simp)
    | some i =>
      obtain ⟨hi, _, _⟩ := indexAny?_some nl classChars i h
      have hi0 : i = 0 := by
        simp only [IndexAny, h] at h1
        omega
      have hb : byteLen (leadingRun nl) = 0 := by rw [leadingRun, ← hi, hi0]
      cases hl : leadingRun nl with
      | nil => rfl
      | cons c cs =>
        rw [hl] at hb
        have := utf8Width_pos c
        simp [byteLen] at hb
        omega
  · rfl

/-- Lines 171-174: the new jobs prefix is the text of the lookahead before its first character
of the class, and the slice panics when the lookahead has no such character. -/
theorem jobsListPrefix_some (old nl : Str) :
    jobsListPrefix old (some nl) = if hasClassChar nl then some (leadingRun nl) else none := by
  unfold jobsListPrefix
  simp only []
  exact sliceTo_IndexAny nl

theorem sectionMatch_keyword (kw rest : Str) (h : kw ∈ sectionKeywords) :
    sectionMatch (kw ++ ":".toList ++ rest) = some (kw, afterColon rest) := by
  simp only [sectionKeywords, List.mem_cons, List.mem_singleton, List.not_mem_nil, or_false] at h
  rcases h with rfl | rfl | rfl | rfl | rfl | rfl | rfl | rfl | rfl | rfl | rfl | rfl | rfl <;> rfl

theorem untilNewline_append (v rest : Str) (hv : '\n' ∉ v) :
    untilNewline (v ++ '\n' :: rest) = v := by
  induction v with
  | nil => simp [untilNewline]
  | cons c cs ih =>
    have hc : c ≠ '\n' := fun h => hv (by simp [h])
    have hcs : '\n' ∉ cs := fun h => hv (by simp [h])
    have := ih hcs
    simp only [untilNewline] at this
    simp [untilNewline, hc, this]

theorem afterColon_eq (rest : Str) : afterColon rest = untilNewline (dropOneSpace rest) := by
  unfold afterColon dropOneSpace
  split
  · simp
  · rename_i h
    have : rest.head? ≠ some ' ' := by
      cases rest with
      | nil => simp
      | cons c cs =>
        intro hc
        simp only [List.head?_cons, Option.some.injEq] at hc
        exact h cs (by rw [hc])
    simp [this]

/-- A text without pattern-syntax characters compiles to itself as a literal, followed by the
class `[- ]` and the key. -/
theorem MustCompile_literal (x key : Str) (hx : ∀ c ∈ x, c ∉ metaChars) :
    MustCompile x key = Compiled.ok (x.map Node.lit ++ Node.dashOrSpace :: key.map Node.lit) := by
  have h1 : (x.any (fun c => decide (c ∈ uninterpreted))) = false := by
    simp only [List.any_eq_false, decide_eq_true_eq]
    intro c hc hu
    apply hx c hc
    simp only [uninterpreted, metaChars] at hu ⊢
    revert hu
    simp only [String.toList, List.mem_cons]
    rintro (h | h | h | h | h | h | h | h | h | h | h | h | h) <;> simp_all
  have h2 : '(' ∉ x := fun h => hx _ h (by decide)
  have h3 : x.map (fun c => if c = '.' then Node.anyChar else Node.lit c) = x.map Node.lit := by
    apply List.map_congr_left
    intro c hc
    have : c ≠ '.' := fun h => hx c hc (by rw [h]; decide)
    simp [this]
  simp [MustCompile, h1, h2, h3]

/-- A pattern built from a text without pattern-syntax characters is interpreted here, whatever
the package `regexp` does with other patterns: the line is matched against the text as a
literal, the class `[- ]` and the key. -/
theorem lineMatch_literal (regexp : Str → Library) (x key line : Str)
    (hx : ∀ c ∈ x, c ∉ metaChars) :
    lineMatch regexp x key true line
      = match FindStringSubmatch (x.map Node.lit ++ Node.dashOrSpace :: key.map Node.lit) line
          with
        | some sub => Found.found sub
        | none => Found.noMatch := by
  simp only [lineMatch, MustCompile_literal x key hx, if_true]

theorem lineMatch_literal_jobs (regexp : Str → Library) (x key line : Str)
    (hx : ∀ c ∈ x, c ∉ metaChars) :
    lineMatch regexp x key false line
      = if MatchString (x.map Node.lit ++ Node.dashOrSpace :: key.map Node.lit) line
        then Found.found [] else Found.noMatch := by
  simp only [lineMatch, MustCompile_literal x key hx]
  rfl

theorem matchNodes_literal (x : Str) (ns : List Node) (s : Str) :
    matchNodes (x.map Node.lit ++ ns) (x ++ s) = matchNodes ns s := by
  induction x with
  | nil => rfl
  | cons c cs ih => simp [matchNodes, Node.accepts, ih]

theorem matchNodes_literal_front (x : Str) (ns : List Node) (s rest : Str)
    (h : matchNodes (x.map Node.lit ++ ns) s = some rest) :
    ∃ mid, s = x ++ mid ∧ matchNodes ns mid = some rest := by
  induction x generalizing s with
  | nil => exact ⟨s, rfl, h⟩
  | cons c cs ih =>
    cases s with
    | nil => simp [matchNodes] at h
    | cons d ds =>
      simp only [List.map_cons, List.cons_append, matchNodes, Node.accepts, beq_iff_eq] at h
      split at h
      · rename_i hcd
        obtain ⟨mid, h1, h2⟩ := ih ds h
        exact ⟨mid, by rw [hcd, h1]; rfl, h2⟩
      · exact Option.noConfusion h

theorem matchNodes_literal_some (key s rest : Str)
    (h : matchNodes (key.map Node.lit) s = some rest) : s = key ++ rest := by
  induction key generalizing s with
  | nil =>
    simp only [List.map_nil, matchNodes, Option.some.injEq] at h
    simp [h]
  | cons c cs ih =>
    cases s with
    | nil => simp [matchNodes] at h
    | cons d ds =>
      simp only [List.map_cons, matchNodes, Node.accepts, beq_iff_eq] at h
      split at h
      · rename_i hcd
        rw [hcd, ih ds h]
        rfl
      · exact Option.noConfusion h

/-- The match of a literal text, the class `[- ]` and a literal key: the line starts with the
text, one dash or space, and the key, and the rest of the line is left. -/
theorem matchNodes_literal_iff (x key line rest : Str) :
    matchNodes (x.map Node.lit ++ Node.dashOrSpace :: key.map Node.lit) line = some rest
      ↔ ∃ c, (c = '-' ∨ c = ' ') ∧ line = x ++ c :: (key ++ rest) := by
  constructor
  · intro hm
    obtain ⟨mid, h1, h2⟩ := matchNodes_literal_front x _ line rest hm
    cases mid with
    | nil => simp [matchNodes] at h2
    | cons c cs =>
      simp only [matchNodes] at h2
      split at h2
      · rename_i hacc
        have h3 := matchNodes_literal_some key cs rest h2
        refine ⟨c, ?_, by rw [h1, h3]⟩
        simpa [Node.accepts] using hacc
      · exact Option.noConfusion h2
  · rintro ⟨c, hc, rfl⟩
    have hacc : Node.dashOrSpace.accepts c = true := by
      rcases hc with rfl | rfl <;> rfl
    have hm := matchNodes_literal key [] rest
    simp only [List.append_nil, matchNodes] at hm
    simp [matchNodes_literal, matchNodes, hacc, hm]

/-- A pattern whose spliced text has no pattern-syntax character matches a line exactly when
the line starts with the text, one dash or space, and the key; the group captures what follows
the key, up to the newline. -/
theorem lineMatch_literal_found (regexp : Str → Library) (x key line name : Str)
    (hx : ∀ c ∈ x, c ∉ metaChars) :
    lineMatch regexp x key true line = Found.found name
      ↔ ∃ c rest, (c = '-' ∨ c = ' ') ∧ line = x ++ c :: (key ++ rest)
          ∧ name = untilNewline rest := by
  rw [lineMatch_literal regexp x key line hx]
  unfold FindStringSubmatch
  cases hm : matchNodes (x.map Node.lit ++ Node.dashOrSpace :: key.map Node.lit) line with
  | none =>
    simp only []
    constructor
    · intro h; exact Found.noConfusion h
    · rintro ⟨c, rest, hc, hl, _⟩
      have := (matchNodes_literal_iff x key line rest).2 ⟨c, hc, hl⟩
      rw [hm] at this
      exact Option.noConfusion this
  | some rest =>
    simp only [Found.found.injEq]
    obtain ⟨c, hc, hl⟩ := (matchNodes_literal_iff x key line rest).1 hm
    constructor
    · intro h
      exact ⟨c, rest, hc, hl, h.symm⟩
    · rintro ⟨c', rest', hc', hl', hn⟩
      have := (matchNodes_literal_iff x key line rest').2 ⟨c', hc', hl'⟩
      rw [hm] at this
      simp only [Option.some.injEq] at this
      rw [hn, this]

/-- A pattern whose spliced text has no pattern-syntax character fails to match exactly the
lines that do not start with the text, one dash or space, and the key. -/
theorem lineMatch_literal_noMatch (regexp : Str → Library) (x key line : Str)
    (hx : ∀ c ∈ x, c ∉ metaChars) :
    lineMatch regexp x key true line = Found.noMatch
      ↔ ¬ ∃ c rest, (c = '-' ∨ c = ' ') ∧ line = x ++ c :: (key ++ rest) := by
  rw [lineMatch_literal regexp x key line hx]
  unfold FindStringSubmatch
  cases hm : matchNodes (x.map Node.lit ++ Node.dashOrSpace :: key.map Node.lit) line with
  | none =>
    simp only [true_iff]
    rintro ⟨c, rest, hc, hl⟩
    have := (matchNodes_literal_iff x key line rest).2 ⟨c, hc, hl⟩
    rw [hm] at this
    exact Option.noConfusion this
  | some rest =>
    obtain ⟨c, hc, hl⟩ := (matchNodes_literal_iff x key line rest).1 hm
    simp only [false_iff, not_not]
    constructor
    · intro h; exact Found.noConfusion h
    · intro h; exact absurd ⟨c, rest, hc, hl⟩ h

/-- A line whose first character is not the initial of a section keyword is no section
header. -/
theorem sectionMatch_none_of_head (ch : Char) (rest : Str)
    (h : ch ∉ "ndvraucis".toList) : sectionMatch (ch :: rest) = none := by
  simp only [String.toList, List.mem_cons, List.not_mem_nil, or_false, not_or] at h
  obtain ⟨h1, h2, h3, h4, h5, h6, h7, h8, h9⟩ := h
  simp [sectionMatch, firstKeyword, sectionKeywords, afterPrefix?, Ne.symm h1, Ne.symm h2,
    Ne.symm h3, Ne.symm h4, Ne.symm h5, Ne.symm h6, Ne.symm h7, Ne.symm h8, Ne.symm h9]

theorem sectionMatch_none_of_prefixed (x : Str) (c : Char) (rest : Str)
    (hx : ∀ ch ∈ x, ch ∉ classChars) (hc : c = '-' ∨ c = ' ') :
    sectionMatch (x ++ c :: rest) = none := by
  cases x with
  | nil =>
    rcases hc with rfl | rfl <;> exact sectionMatch_none_of_head _ _ (by decide)
  | cons d ds =>
    apply sectionMatch_none_of_head
    intro hd
    apply hx d (by simp)
    simp only [String.toList, List.mem_cons, List.not_mem_nil, or_false] at hd
    rcases hd with h | h | h | h | h | h | h | h | h <;> (rw [h]; decide)

theorem sectionPrefix_isSome (old : Str) (nextLine : Option Str) :
    ∃ x, sectionPrefix old nextLine = some x := by
  cases nextLine with
  | none => exact ⟨old, rfl⟩
  | some nl => exact ⟨_, sectionPrefix_some old nl⟩

/-- The step of a list-item line: in a state whose item prefix `x` has no pattern-syntax
character (and, being derived from a lookahead, no character of the class), the line
`x`, one of `-` and space, the key (` alias: ` inside the stemcells section, ` name: `
elsewhere), a value and the newline is handled by the list-item rule with that value. -/
theorem processLine_item (p : tagParser) (st : parseState) (lineNum : Int) (c : Char)
    (v rest : Str) (nextLine : Option Str)
    (hlit : ∀ ch ∈ st.pfx, ch ∉ metaChars) (hcls : ∀ ch ∈ st.pfx, ch ∉ classChars)
    (hc : c = '-' ∨ c = ' ') (hv : '\n' ∉ v) :
    processLine p st lineNum
        (st.pfx ++ c :: ((if st.inStemcells then " alias: ".toList else " name: ".toList)
          ++ (v ++ '\n' :: rest))) nextLine
      = itemRule p st lineNum
          (st.pfx ++ c :: ((if st.inStemcells then " alias: ".toList else " name: ".toList)
            ++ (v ++ '\n' :: rest))) v := by
  have hm : matchNodes
      (st.pfx.map Node.lit ++ Node.dashOrSpace ::
        (if st.inStemcells then " alias: ".toList else " name: ".toList).map Node.lit)
      (st.pfx ++ c :: ((if st.inStemcells then " alias: ".toList else " name: ".toList)
          ++ (v ++ '\n' :: rest))) = some (v ++ '\n' :: rest) := by
    rw [matchNodes_literal]
    have hacc : Node.dashOrSpace.accepts c = true := by
      rcases hc with rfl | rfl <;> rfl
    simp only [matchNodes, hacc, if_true]
    have := matchNodes_literal
      (if st.inStemcells then " alias: ".toList else " name: ".toList) [] (v ++ '\n' :: rest)
    simpa [matchNodes] using this
  simp only [processLine, sectionMatch_none_of_prefixed _ _ _ hcls hc,
    lineMatch_literal _ _ _ _ hlit, FindStringSubmatch, hm, untilNewline_append _ _ hv]

/-- What the list-item rule emits. -/
theorem itemRule_continues (p : tagParser) (st : parseState) (lineNum : Int) (line name : Str) :
    ∃ tag,
      itemRule p st lineNum line name
          = Step.continues { st with currentInstanceGroup := name } (some tag)
        ∧ tag.Name = name
        ∧ tag.Typ = st.currentSection
        ∧ getField tag.Fields PrimitiveType = some st.currentPrimitive
        ∧ getField tag.Fields TypeField = some st.currentPrimitive :=
  ⟨_, rfl, rfl, rfl, rfl, rfl⟩

/-- A line that is no section header leaves the item prefix, the stemcells flag, the section
kind and the stored section keyword as they are: they last until the next section header. -/
theorem processLine_keeps_section (p : tagParser) (st st' : parseState) (lineNum : Int)
    (line : Str) (nextLine : Option Str) (emitted : Option Tag)
    (hline : sectionMatch line = none)
    (h : processLine p st lineNum line nextLine = Step.continues st' emitted) :
    st'.pfx = st.pfx ∧ st'.inStemcells = st.inStemcells
      ∧ st'.currentSection = st.currentSection
      ∧ st'.currentPrimitive = st.currentPrimitive := by
  simp only [processLine, hline] at h
  split at h
  · exact Step.noConfusion h
  · exact Step.noConfusion h
  · simp only [itemRule, Step.continues.injEq] at h
    obtain ⟨rfl, _⟩ := h
    exact ⟨rfl, rfl, rfl, rfl⟩
  · simp only [jobOrJobsList] at h
    split at h
    · exact Step.noConfusion h
    · exact Step.noConfusion h
    · simp only [jobRule, Step.continues.injEq] at h
      obtain ⟨rfl, _⟩ := h
      exact ⟨rfl, rfl, rfl, rfl⟩
    · simp only [jobsListRule] at h
      split at h
      · exact Step.noConfusion h
      · exact Step.noConfusion h
      · split at h
        · exact Step.noConfusion h
        · simp only [Step.continues.injEq] at h
          obtain ⟨rfl, _⟩ := h
          exact ⟨rfl, rfl, rfl, rfl⟩
      · simp only [Step.continues.injEq] at h
        obtain ⟨rfl, _⟩ := h
        exact ⟨rfl, rfl, rfl, rfl⟩

/-- What the job rule emits. -/
theorem jobRule_continues (p : tagParser) (st : parseState) (lineNum : Int) (line name : Str) :
    ∃ tag,
      jobRule p st lineNum line name = Step.continues st (some tag)
        ∧ tag.Name = name
        ∧ tag.Typ = Job
        ∧ getField tag.Fields TypeField = some "job".toList
        ∧ getField tag.Fields InstanceGroupType
            = some (st.currentPrimitive ++ ".".toList ++ st.currentInstanceGroup) :=
  ⟨_, rfl, rfl, rfl, rfl, rfl⟩

/-- Inside the stemcells section a line `<itemPrefix>[- ] name: <v>` is matched neither by the
section rule nor by the list-item rule: it is handed to the job rule. -/
theorem processLine_name_in_stemcells (p : tagParser) (st : parseState) (lineNum : Int)
    (c : Char) (v : Str) (nextLine : Option Str) (hstem : st.inStemcells = true)
    (hlit : ∀ ch ∈ st.pfx, ch ∉ metaChars) (hcls : ∀ ch ∈ st.pfx, ch ∉ classChars)
    (hc : c = '-' ∨ c = ' ') :
    processLine p st lineNum (st.pfx ++ c :: (" name: ".toList ++ v)) nextLine
      = jobOrJobsList p st lineNum (st.pfx ++ c :: (" name: ".toList ++ v)) nextLine := by
  have hacc : Node.dashOrSpace.accepts c = true := by
    rcases hc with rfl | rfl <;> rfl
  have hm : matchNodes (st.pfx.map Node.lit ++ Node.dashOrSpace :: " alias: ".toList.map Node.lit)
      (st.pfx ++ c :: (" name: ".toList ++ v)) = none := by
    rw [matchNodes_literal]
    simp only [matchNodes, hacc, if_true]
    rfl
  simp only [processLine, sectionMatch_none_of_prefixed _ _ _ hcls hc, hstem, if_true,
    lineMatch_literal _ _ _ _ hlit, FindStringSubmatch, hm]

/-- The jobs-list introducer rule does not match a line `<itemPrefix>[- ] name: <v>`. -/
theorem jobsListRule_name_line (p : tagParser) (st : parseState) (c : Char) (v : Str)
    (nextLine : Option Str) (hlit : ∀ ch ∈ st.pfx, ch ∉ metaChars) (hc : c = '-' ∨ c = ' ') :
    jobsListRule p st (st.pfx ++ c :: (" name: ".toList ++ v)) nextLine
      = Step.continues st none := by
  have hacc : Node.dashOrSpace.accepts c = true := by
    rcases hc with rfl | rfl <;> rfl
  have hm : matchNodes (st.pfx.map Node.lit ++ Node.dashOrSpace :: " jobs:".toList.map Node.lit)
      (st.pfx ++ c :: (" name: ".toList ++ v)) = none := by
    rw [matchNodes_literal]
    simp only [matchNodes, hacc, if_true]
    rfl
  simp only [jobsListRule, lineMatch_literal_jobs _ _ _ _ hlit, MatchString, hm]
  rfl

/-- The four ways a step continues: the section rule; the list-item rule, with the text its
pattern captured; the job rule, with the text its pattern captured, the list-item pattern not
matching; or no tag and at most a new jobs prefix, neither pattern matching. -/
theorem processLine_continues_cases (p : tagParser) (st st' : parseState) (n : Int)
    (line : Str) (nextLine : Option Str) (emitted : Option Tag)
    (h : processLine p st n line nextLine = Step.continues st' emitted) :
    (∃ kw trailing, sectionMatch line = some (kw, trailing)
        ∧ sectionRule p st n line nextLine kw trailing = Step.continues st' emitted)
      ∨ (sectionMatch line = none
          ∧ ∃ name, lineMatch p.regexp st.pfx (itemKey st) true line = Found.found name
          ∧ itemRule p st n line name = Step.continues st' emitted)
      ∨ (sectionMatch line = none
          ∧ lineMatch p.regexp st.pfx (itemKey st) true line = Found.noMatch
          ∧ ∃ name, lineMatch p.regexp st.jobsPrefix " name: ".toList true line
              = Found.found name
          ∧ jobRule p st n line name = Step.continues st' emitted)
      ∨ (sectionMatch line = none
          ∧ lineMatch p.regexp st.pfx (itemKey st) true line = Found.noMatch
          ∧ lineMatch p.regexp st.jobsPrefix " name: ".toList true line = Found.noMatch
          ∧ emitted = none
          ∧ st' = { st with jobsPrefix := st'.jobsPrefix }) := by
  unfold processLine at h
  split at h
  · rename_i kw trailing hm
    exact Or.inl ⟨kw, trailing, hm, h⟩
  · rename_i hm
    split at h
    · exact Step.noConfusion h
    · exact Step.noConfusion h
    · rename_i name hf
      exact Or.inr (Or.inl ⟨hm, name, hf, h⟩)
    · rename_i hf
      simp only [jobOrJobsList] at h
      split at h
      · exact Step.noConfusion h
      · exact Step.noConfusion h
      · rename_i name hf2
        exact Or.inr (Or.inr (Or.inl ⟨hm, hf, name, hf2, h⟩))
      · rename_i hf2
        simp only [jobsListRule] at h
        refine Or.inr (Or.inr (Or.inr ⟨hm, hf, hf2, ?_⟩))
        split at h
        · exact Step.noConfusion h
        · exact Step.noConfusion h
        · split at h
          · exact Step.noConfusion h
          · simp only [Step.continues.injEq] at h
            obtain ⟨rfl, rfl⟩ := h
            exact ⟨rfl, rfl⟩
        · simp only [Step.continues.injEq] at h
          obtain ⟨rfl, rfl⟩ := h
          exact ⟨rfl, rfl⟩

/-- What the section rule emits, and the state it leaves. -/
theorem sectionRule_continues (p : tagParser) (st st' : parseState) (n : Int) (line : Str)
    (nextLine : Option Str) (kw trailing : Str) (emitted : Option Tag)
    (h : sectionRule p st n line nextLine kw trailing = Step.continues st' emitted) :
    ∃ tag, emitted = some tag
      ∧ tag.Name = (switchSection kw st.currentSection).2.1
      ∧ (tag.Typ = Primitive ∨ tag.Typ = Basic)
      ∧ tag.Address = address n (Index line tag.Name + 1)
      ∧ getField tag.Fields Line = some (Itoa n)
      ∧ st'.currentPrimitive = tag.Name
      ∧ st'.currentSection = (switchSection kw st.currentSection).1
      ∧ st'.inStemcells = (switchSection kw st.currentSection).2.2
      ∧ st'.currentInstanceGroup = st.currentInstanceGroup
      ∧ st'.jobsPrefix = st.jobsPrefix := by
  unfold sectionRule at h
  simp only [] at h
  split at h
  · exact Step.noConfusion h
  · simp only [Step.continues.injEq] at h
    obtain ⟨rfl, rfl⟩ := h
    refine ⟨_, rfl, ?_, ?_, ?_, ?_, ?_, rfl, rfl, rfl, rfl⟩
    · split_ifs <;> rfl
    · split_ifs <;> first | exact Or.inl rfl | exact Or.inr rfl
    · split_ifs <;> rfl
    · split_ifs <;> rfl
    · split_ifs <;> rfl

theorem matchNodes_suffix (ns : List Node) (s rest : Str) (h : matchNodes ns s = some rest) :
    ∃ pre, s = pre ++ rest := by
  induction ns generalizing s with
  | nil =>
    simp only [matchNodes, Option.some.injEq] at h
    exact ⟨[], by simp [h]⟩
  | cons n ns ih =>
    cases s with
    | nil => simp [matchNodes] at h
    | cons c cs =>
      simp only [matchNodes] at h
      split at h
      · obtain ⟨pre, hpre⟩ := ih cs h
        exact ⟨c :: pre, by simp [hpre]⟩
      · exact Option.noConfusion h

/-- The text captured by a pattern is a part of the line. -/
theorem FindStringSubmatch_part_of_line (ns : List Node) (line name : Str)
    (h : FindStringSubmatch ns line = some name) : ∃ pre post, line = pre ++ name ++ post := by
  unfold FindStringSubmatch at h
  split at h
  · rename_i rest hm
    simp only [Option.some.injEq] at h
    obtain ⟨pre, hpre⟩ := matchNodes_suffix ns line rest hm
    refine ⟨pre, rest.dropWhile (fun c => c != '\n'), ?_⟩
    rw [hpre, ← h, untilNewline, List.append_assoc, List.takeWhile_append_dropWhile]
  · exact Option.noConfusion h

/-- The text a pattern captures is a part of the line. -/
theorem lineMatch_part_of_line (regexp : Str → Library) (x key : Str) (group : Bool)
    (line name : Str) (h : lineMatch regexp x key group line = Found.found name) :
    ∃ pre post, line = pre ++ name ++ post := by
  unfold lineMatch at h
  split at h
  · rename_i nodes _
    split at h
    · split at h
      · rename_i sub hf
        simp only [Found.found.injEq] at h
        subst h
        exact FindStringSubmatch_part_of_line nodes line _ hf
      · exact Found.noConfusion h
    · split at h
      · simp only [Found.found.injEq] at h
        subst h
        exact ⟨[], line, rfl⟩
      · exact Found.noConfusion h
  · exact Found.noConfusion h
  · split at h
    · split at h
      · rename_i i n _
        simp only [Found.found.injEq] at h
        subst h
        split
        · refine ⟨line.take i, (line.drop i).drop n, ?_⟩
          rw [List.append_assoc, List.take_append_drop, List.take_append_drop]
        · exact ⟨[], line, rfl⟩
      · exact Found.noConfusion h
    · exact Found.noConfusion h
    · exact Found.noConfusion h

/-- `strings.Index` finds a text that occurs in the string, at its first occurrence: the offset
is the byte length of the shortest text before an occurrence. -/
theorem indexOf?_first_occurrence (s sub : Str) (h : ∃ pre post, s = pre ++ sub ++ post) :
    ∃ pre post, s = pre ++ sub ++ post ∧ indexOf? s sub = some (byteLen pre)
      ∧ ∀ pre' post', s = pre' ++ sub ++ post' → pre.length ≤ pre'.length := by
  induction s with
  | nil =>
    obtain ⟨pre, post, hs⟩ := h
    have h1 : pre = [] := by
      cases pre with
      | nil => rfl
      | cons a as => simp at hs
    have h2 : sub = [] := by
      subst h1
      cases sub with
      | nil => rfl
      | cons a as => simp at hs
    subst h2
    exact ⟨[], [], by simp, by simp [indexOf?, byteLen], by intro _ _ _; simp⟩
  | cons c cs ih =>
    by_cases hp : sub.isPrefixOf (c :: cs) = true
    · obtain ⟨post, hpost⟩ := List.isPrefixOf_iff_prefix.1 hp
      exact ⟨[], post, by simp [hpost], by simp [indexOf?, hp, byteLen], by intro _ _ _; simp⟩
    · obtain ⟨pre, post, hs⟩ := h
      have hne : ∀ pre' post', c :: cs = pre' ++ sub ++ post' →
          ∃ pre'', pre' = c :: pre'' ∧ cs = pre'' ++ sub ++ post' := by
        intro pre' post' hs'
        cases pre' with
        | nil =>
          exfalso
          apply hp
          apply List.isPrefixOf_iff_prefix.2
          exact ⟨post', by simp [hs']⟩
        | cons a as =>
          simp only [List.cons_append, List.cons.injEq] at hs'
          exact ⟨as, by rw [hs'.1], hs'.2⟩
      obtain ⟨pre0, rfl, hcs⟩ := hne pre post hs
      obtain ⟨q, r, hq, hidx, hmin⟩ := ih ⟨pre0, post, hcs⟩
      refine ⟨c :: q, r, by simp [hq], ?_, ?_⟩
      · simp [indexOf?, hp, hidx, byteLen]
      · intro pre' post' hs'
        obtain ⟨pre'', rfl, hcs'⟩ := hne pre' post' hs'
        have := hmin pre'' post' hcs'
        simp only [List.length_cons]
        omega

theorem firstKeyword_some (kws : List Str) (line kw trailing : Str)
    (h : firstKeyword kws line = some (kw, trailing)) :
    kw ∈ kws ∧ ∃ rest, line = kw ++ ":".toList ++ rest := by
  have hpre : ∀ (a s r : Str), afterPrefix? a s = some r → s = a ++ r := by
    intro a
    induction a with
    | nil => intro s r h; simp only [afterPrefix?, Option.some.injEq] at h; simp [h]
    | cons x xs ih =>
      intro s r h
      cases s with
      | nil => simp [afterPrefix?] at h
      | cons y ys =>
        simp only [afterPrefix?] at h
        split at h
        · rename_i hxy
          rw [hxy, ih ys r h]
          rfl
        · exact Option.noConfusion h
  induction kws with
  | nil => simp [firstKeyword] at h
  | cons k ks ih =>
    simp only [firstKeyword] at h
    split at h
    · rename_i rest hr
      simp only [Option.some.injEq, Prod.mk.injEq] at h
      obtain ⟨rfl, _⟩ := h
      exact ⟨by simp, rest, by rw [hpre _ _ _ hr]; rfl⟩
    · obtain ⟨h1, h2⟩ := ih h
      exact ⟨by simp [h1], h2⟩

theorem switchSection_name (kw : Str) (cur : TagType) (h1 : kw ≠ "resource_pools".toList)
    (h2 : kw ≠ "disk_pools".toList) : (switchSection kw cur).2.1 = kw := by
  unfold switchSection
  split_ifs <;> rfl

/-- The address of every emitted tag is built from the number of its line and from
`strings.Index` of the tag's name in the line, and the `line` attribute is the same line number.
Unless the line is the header of a deprecated section keyword, the name occurs in the line and
the column is that of its first occurrence: one more than the number of bytes before it. -/
theorem address_of_emitted_tag (p : tagParser) (st st' : parseState) (n : Int) (line : Str)
    (nextLine : Option Str) (t : Tag)
    (h : processLine p st n line nextLine = Step.continues st' (some t)) :
    t.Address = address n (Index line t.Name + 1)
      ∧ getField t.Fields Line = some (Itoa n)
      ∧ (isAliasedHeader line = false →
          ∃ pre post, line = pre ++ t.Name ++ post
            ∧ t.Address = address n ((byteLen pre : Int) + 1)
            ∧ ∀ pre' post', line = pre' ++ t.Name ++ post' → pre.length ≤ pre'.length) := by
  have hidx : ∀ name : Str, (∃ pre post, line = pre ++ name ++ post) →
      ∃ pre post, line = pre ++ name ++ post
        ∧ address n (Index line name + 1) = address n ((byteLen pre : Int) + 1)
        ∧ ∀ pre' post', line = pre' ++ name ++ post' → pre.length ≤ pre'.length := by
    intro name hn
    obtain ⟨pre, post, h1, h2, h3⟩ := indexOf?_first_occurrence line name hn
    exact ⟨pre, post, h1, by simp [Index, h2], h3⟩
  rcases processLine_continues_cases p st st' n line nextLine (some t) h with
    ⟨kw, trailing, hm, hr⟩ | ⟨_, name, hf, hr⟩ | ⟨_, _, name, hf, hr⟩ | ⟨_, _, _, he, _⟩
  · obtain ⟨tag, ht, hname, _, haddr, hline, _⟩ :=
      sectionRule_continues p st st' n line nextLine kw trailing _ hr
    simp only [Option.some.injEq] at ht
    subst ht
    refine ⟨haddr, hline, ?_⟩
    intro hal
    simp only [isAliasedHeader, hm, decide_eq_false_iff_not, aliasedKeywords, List.mem_cons,
      List.mem_singleton, List.not_mem_nil, or_false, not_or] at hal
    have hkw : t.Name = kw := by
      rw [hname]
      exact switchSection_name kw _ hal.1 hal.2
    obtain ⟨_, rest, hrest⟩ := firstKeyword_some _ _ _ _ hm
    obtain ⟨pre, post, h1, h2, h3⟩ := hidx t.Name ⟨[], ":".toList ++ rest, by
      rw [hkw, hrest]; simp⟩
    exact ⟨pre, post, h1, by rw [haddr, h2], h3⟩
  · simp only [itemRule, Step.continues.injEq, Option.some.injEq] at hr
    obtain ⟨_, rfl⟩ := hr
    refine ⟨rfl, rfl, fun _ => ?_⟩
    obtain ⟨pre, post, h1, h2, h3⟩ := hidx name (lineMatch_part_of_line _ _ _ _ line _ hf)
    exact ⟨pre, post, h1, h2, h3⟩
  · simp only [jobRule, Step.continues.injEq, Option.some.injEq] at hr
    obtain ⟨_, rfl⟩ := hr
    refine ⟨rfl, rfl, fun _ => ?_⟩
    obtain ⟨pre, post, h1, h2, h3⟩ := hidx name (lineMatch_part_of_line _ _ _ _ line _ hf)
    exact ⟨pre, post, h1, h2, h3⟩
  · exact Option.noConfusion he

/-- The jobs-list introducer rule on a line `<itemPrefix>[- ] jobs:`: with a lookahead that
holds a character of the class the jobs prefix becomes the text before the first such
character and no tag is emitted; with a lookahead that holds none, the rule panics. -/
theorem jobsListRule_introducer (p : tagParser) (st : parseState) (c : Char) (rest nl : Str)
    (hlit : ∀ ch ∈ st.pfx, ch ∉ metaChars) (hc : c = '-' ∨ c = ' ') :
    jobsListRule p st (st.pfx ++ c :: (" jobs:".toList ++ rest)) (some nl)
      = if hasClassChar nl then Step.continues { st with jobsPrefix := leadingRun nl } none
        else Step.panics := by
  have hacc : Node.dashOrSpace.accepts c = true := by
    rcases hc with rfl | rfl <;> rfl
  have hm : matchNodes (st.pfx.map Node.lit ++ Node.dashOrSpace :: " jobs:".toList.map Node.lit)
      (st.pfx ++ c :: (" jobs:".toList ++ rest)) = some rest := by
    rw [matchNodes_literal]
    simp only [matchNodes, hacc, if_true]
    rfl
  simp only [jobsListRule, lineMatch_literal_jobs _ _ _ _ hlit, MatchString, hm,
    Option.isSome_some, if_true, jobsListPrefix_some]
  split_ifs <;> rfl

/-! ## The scan as a sequence of steps -/

/-- A scan emits fewer tags than its input has lines: a line emits at most one tag, and the
last line is never matched. -/
theorem loop_tags_length (p : tagParser) (st : parseState) (n : Int) (tags : List Tag)
    (line : Str) (reads : List Str) :
    (loop p st n tags line reads).tags.length ≤ tags.length + reads.length := by
  induction reads generalizing st n tags line with
  | nil => simp [loop]
  | cons nl reads ih =>
    unfold loop
    cases processLine p st n line (some nl) with
    | continues st' emitted =>
      have := ih st' (n + 1) (tags ++ emitted.toList) nl
      cases emitted <;> simp at this ⊢ <;> omega
    | panics => simp
    | unknown => simp

/-- A scan of an input with at least one line emits fewer tags than the input has lines. -/
theorem parse_tags_length (p : tagParser) (input : Str) :
    readLines input = [] ∨ (parse p input).tags.length < (readLines input).length := by
  unfold parse
  cases h : readLines input with
  | nil => exact Or.inl rfl
  | cons nl reads =>
    right
    have := loop_tags_length p initialState 1 [] nl reads
    simp only [List.length_nil, List.length_cons] at this ⊢
    omega

/-- Invariants of the loop: a property of the state, the line number and the tags that holds on
entry and is kept by every step that continues holds for the tags of the scan, however the scan
ends. -/
theorem loop_invariant (p : tagParser) (I : parseState → Int → List Tag → Prop)
    (hstep : ∀ st n tags line nl st' emitted, I st n tags →
      processLine p st n line (some nl) = Step.continues st' emitted →
      I st' (n + 1) (tags ++ emitted.toList))
    (st : parseState) (n : Int) (tags : List Tag) (line : Str) (reads : List Str)
    (h : I st n tags) :
    ∃ st' n', I st' n' (loop p st n tags line reads).tags := by
  induction reads generalizing st n tags line with
  | nil => exact ⟨st, n, h⟩
  | cons nl reads ih =>
    unfold loop
    cases hs : processLine p st n line (some nl) with
    | continues st' emitted => exact ih st' (n + 1) _ nl (hstep st n tags line nl st' emitted h hs)
    | panics => exact ⟨st, n, h⟩
    | unknown => exact ⟨st, n, h⟩

theorem parse_invariant (p : tagParser) (I : parseState → Int → List Tag → Prop)
    (hstep : ∀ st n tags line nl st' emitted, I st n tags →
      processLine p st n line (some nl) = Step.continues st' emitted →
      I st' (n + 1) (tags ++ emitted.toList))
    (h0 : I initialState 1 []) (input : Str) :
    ∃ st n, I st n (parse p input).tags := by
  unfold parse
  cases readLines input with
  | nil => exact ⟨initialState, 1, h0⟩
  | cons nl reads => exact loop_invariant p I hstep initialState 1 [] nl reads h0

theorem switchSection_kind (kw : Str) (cur : TagType) (h : cur ∈ sectionKinds) :
    (switchSection kw cur).1 ∈ sectionKinds := by
  unfold switchSection
  split_ifs <;> first | exact h | (show _ ∈ sectionKinds; simp [sectionKinds])

theorem sectionKinds_not_job (k : TagType) (h : k ∈ sectionKinds) :
    k ≠ Job ∧ k ≠ Primitive ∧ k ≠ Basic := by
  simp only [sectionKinds, List.mem_cons, List.mem_singleton, List.not_mem_nil, or_false] at h
  rcases h with rfl | rfl | rfl | rfl | rfl | rfl | rfl | rfl <;> decide

theorem jobsQualified_append (P G : Str) (ts us : List Tag) :
    jobsQualified P G (ts ++ us)
      ↔ jobsQualified P G ts ∧ jobsQualified (lastNames P G ts).1 (lastNames P G ts).2 us := by
  induction ts generalizing P G with
  | nil => simp [jobsQualified, lastNames]
  | cons t ts ih =>
    rw [List.cons_append]
    simp only [jobsQualified, lastNames]
    split_ifs
    · rw [ih]; tauto
    · rw [ih]
    · rw [ih]

theorem lastNames_append (P G : Str) (ts us : List Tag) :
    lastNames P G (ts ++ us) = lastNames (lastNames P G ts).1 (lastNames P G ts).2 us := by
  induction ts generalizing P G with
  | nil => rfl
  | cons t ts ih =>
    rw [List.cons_append]
    simp only [lastNames]
    split_ifs <;> rw [ih]

/-- Job tags are qualified: in the tags of every scan, however it ends, each tag of the job
kind has the `type` attribute `job` and the `itype` attribute `P.G`, where `P` is the name of
the most recent header tag before it (the keyword stored by that header) and `G` the name of the
most recent list-item tag before it, each empty if there is none. -/
theorem job_tags_are_qualified (p : tagParser) (input : Str) :
    jobsQualified [] [] (parse p input).tags := by
  have key := parse_invariant p
    (fun st _ tags => jobsQualified [] [] tags
      ∧ lastNames [] [] tags = (st.currentPrimitive, st.currentInstanceGroup)
      ∧ st.currentSection ∈ sectionKinds)
    (by
      intro st n tags line nl st' emitted ⟨hq, hl, hk⟩ hs
      rw [jobsQualified_append, lastNames_append, hl]
      rcases processLine_continues_cases p st st' n line (some nl) emitted hs with
        ⟨kw, trailing, _, h⟩ | ⟨_, name, _, h⟩ | ⟨_, _, name, _, h⟩ | ⟨_, _, _, he, hst⟩
      · obtain ⟨tag, rfl, _, hty, _, _, h1, h2, _, h3, _⟩ :=
          sectionRule_continues p st st' n line (some nl) kw trailing emitted h
        have hnj : tag.Typ ≠ Job := by
          rcases hty with h | h <;> (rw [h]; decide)
        refine ⟨⟨hq, ?_⟩, ?_, ?_⟩
        · simp [jobsQualified, hnj, hty]
        · simp [lastNames, hnj, hty, h1, h3]
        · rw [h2]; exact switchSection_kind kw _ hk
      · obtain ⟨tag, ht, hn, hty, _, _⟩ := itemRule_continues p st n line name
        rw [ht] at h
        simp only [Step.continues.injEq] at h
        obtain ⟨rfl, rfl⟩ := h
        obtain ⟨h1, h2, h3⟩ := sectionKinds_not_job _ hk
        rw [← hty] at h1 h2 h3
        refine ⟨⟨hq, ?_⟩, ?_, hk⟩
        · simp [jobsQualified, h1, h2, h3]
        · simp [lastNames, h1, h2, h3, hn]
      · obtain ⟨tag, ht, _, hty, hf1, hf2⟩ := jobRule_continues p st n line name
        rw [ht] at h
        simp only [Step.continues.injEq] at h
        obtain ⟨rfl, rfl⟩ := h
        refine ⟨⟨hq, ?_⟩, ?_, hk⟩
        · simp [jobsQualified, hty, hf1, hf2]
        · simp [lastNames, hty]
      · subst he
        rw [hst]
        exact ⟨⟨hq, by simp [jobsQualified]⟩, by simp [lastNames], hk⟩)
    (by exact ⟨trivial, rfl, by decide⟩) input
  obtain ⟨_, _, h, _⟩ := key
  exact h

/-! ## The claims -/

/-- C1: the last line of the input never reaches the patterns.  The one-line manifest
`name: x` yields no tag at all, and for `vm_types:` / `- name: a` the tag of the final item line
is missing from the result: the lookahead read returns `io.EOF` and the function returns first. -/
theorem final_line_is_lost :
    Parse manifest "name: x\n".toList = some []
      ∧ Parse manifest "vm_types:\n- name: a\n".toList
          = some [{ Name := "vm_types".toList, File := "manifest.yml".toList,
                    Address := "/\\%1l\\%1c/".toList, Typ := Primitive,
                    Fields := [(Line, "1".toList), (TypeField, "section".toList)] }] := by
  decide

/-- C2: for the header line `resource_pools:` the tag is named `vm_types`, a text that does
not occur in the line: `strings.Index` returns -1 and the address carries the column 0. -/
theorem aliased_header_has_column_zero :
    Parse manifest "resource_pools:\n\n".toList
        = some [{ Name := "vm_types".toList, File := "manifest.yml".toList,
                  Address := "/\\%1l\\%0c/".toList, Typ := Primitive,
                  Fields := [(Line, "1".toList), (TypeField, "section".toList)] }]
      ∧ Index "resource_pools:\n".toList "vm_types".toList = -1 := by
  decide

/-- C3: on the manifest of the claim the job line `  - name: nginx` is the last line and is
never matched: the scan returns the tags of `instance_groups` and `web` only, and no job tag. -/
theorem job_on_final_line_is_lost :
    Parse manifest "instance_groups:\n- name: web\n  jobs:\n  - name: nginx\n".toList
      = some [{ Name := "instance_groups".toList, File := "manifest.yml".toList,
                Address := "/\\%1l\\%1c/".toList, Typ := Primitive,
                Fields := [(Line, "1".toList), (TypeField, "section".toList)] },
              { Name := "web".toList, File := "manifest.yml".toList,
                Address := "/\\%2l\\%9c/".toList, Typ := InstanceGroup,
                Fields := [(Line, "2".toList), (PrimitiveType, "instance_groups".toList),
                           (TypeField, "instance_groups".toList)] }] := by
  decide

/-- C4: a processed line that begins with one of the eleven section keywords other than `name`
and `director_uuid`, followed by a colon, emits exactly one tag; its kind is the
section-primitive kind and its `type` attribute is `section`. -/
theorem section_header_emits_section_tag (p : tagParser) (st : parseState) (lineNum : Int)
    (kw rest : Str) (nextLine : Option Str) (hkw : kw ∈ primitiveKeywords) :
    ∃ st' tag,
      processLine p st lineNum (kw ++ ":".toList ++ rest) nextLine
          = Step.continues st' (some tag)
        ∧ tag.Typ = Primitive
        ∧ getField tag.Fields TypeField = some "section".toList := by
  have hmem : kw ∈ sectionKeywords := by
    simp only [primitiveKeywords, List.mem_cons, List.mem_singleton, List.not_mem_nil,
      or_false] at hkw
    rcases hkw with rfl | rfl | rfl | rfl | rfl | rfl | rfl | rfl | rfl | rfl | rfl <;> decide
  obtain ⟨newPfx, hp⟩ := sectionPrefix_isSome st.pfx nextLine
  simp only [processLine, sectionMatch_keyword _ _ hmem, sectionRule, hp]
  simp only [primitiveKeywords, List.mem_cons, List.mem_singleton, List.not_mem_nil,
    or_false] at hkw
  rcases hkw with rfl | rfl | rfl | rfl | rfl | rfl | rfl | rfl | rfl | rfl | rfl <;>
    exact ⟨_, _, rfl, rfl, rfl⟩

/-- C4 at a concrete line: `networks: # all` processed in the initial state. -/
theorem section_header_emits_section_tag_witness :
    "networks".toList ∈ primitiveKeywords
      ∧ ∃ st' tag,
          processLine manifest initialState 1 ("networks".toList ++ ":".toList ++ " # all\n".toList)
              (some "- name: default\n".toList)
            = Step.continues st' (some tag)
          ∧ tag.Typ = Primitive
          ∧ getField tag.Fields TypeField = some "section".toList :=
  ⟨by decide,
   section_header_emits_section_tag manifest initialState 1 "networks".toList
     " # all\n".toList (some "- name: default\n".toList) (by decide)⟩

/-- C5, as stated, fails: for the processed line `name: foo` the `type` attribute of the tag is
`foo`, while the text that follows the colon is ` foo`, with its leading space. -/
theorem scalar_header_type_drops_space :
    Parse manifest "name: foo\n\n".toList
        = some [{ Name := "name".toList, File := "manifest.yml".toList,
                  Address := "/\\%1l\\%1c/".toList, Typ := Basic,
                  Fields := [(Line, "1".toList), (TypeField, "foo".toList)] }]
      ∧ textAfterColon "name: foo\n".toList = " foo".toList
      ∧ "foo".toList ≠ textAfterColon "name: foo\n".toList := by
  decide

/-- C5, amended: a processed line that begins with `name:` or `director_uuid:` emits exactly one
tag; its kind is the basic kind and its `type` attribute is the text that follows the colon,
less one space when a space follows the colon directly, up to but excluding the newline. -/
theorem scalar_header_emits_basic_tag (p : tagParser) (st : parseState) (lineNum : Int)
    (kw rest : Str) (nextLine : Option Str) (hkw : kw ∈ scalarKeywords) :
    ∃ st' tag,
      processLine p st lineNum (kw ++ ":".toList ++ rest) nextLine
          = Step.continues st' (some tag)
        ∧ tag.Name = kw
        ∧ tag.Typ = Basic
        ∧ getField tag.Fields TypeField = some (untilNewline (dropOneSpace rest)) := by
  have hmem : kw ∈ sectionKeywords := by
    simp only [scalarKeywords, List.mem_cons, List.mem_singleton, List.not_mem_nil,
      or_false] at hkw
    rcases hkw with rfl | rfl <;> decide
  obtain ⟨newPfx, hp⟩ := sectionPrefix_isSome st.pfx nextLine
  simp only [processLine, sectionMatch_keyword _ _ hmem, sectionRule, hp, afterColon_eq]
  simp only [scalarKeywords, List.mem_cons, List.mem_singleton, List.not_mem_nil,
    or_false] at hkw
  rcases hkw with rfl | rfl <;> exact ⟨_, _, rfl, rfl, rfl, rfl⟩

/-- C5 (amended) at a concrete line: `director_uuid: abc` processed in the initial state. -/
theorem scalar_header_emits_basic_tag_witness :
    "director_uuid".toList ∈ scalarKeywords
      ∧ ∃ st' tag,
          processLine manifest initialState 1
              ("director_uuid".toList ++ ":".toList ++ " abc\n".toList) (some "\n".toList)
            = Step.continues st' (some tag)
          ∧ tag.Name = "director_uuid".toList
          ∧ tag.Typ = Basic
          ∧ getField tag.Fields TypeField = some (untilNewline (dropOneSpace " abc\n".toList)) :=
  ⟨by decide,
   scalar_header_emits_basic_tag manifest initialState 1 "director_uuid".toList
     " abc\n".toList (some "\n".toList) (by decide)⟩

/-- C6, as stated, fails: the scan of `resource_pools:` / `- name: rp1` returns one tag only, the
header's; it is named `vm_types`, carries no `ptype` attribute, and no tag is named `rp1`. -/
theorem resource_pools_scan :
    Parse manifest "resource_pools:\n- name: rp1\n".toList
        = some [{ Name := "vm_types".toList, File := "manifest.yml".toList,
                  Address := "/\\%1l\\%0c/".toList, Typ := Primitive,
                  Fields := [(Line, "1".toList), (TypeField, "section".toList)] }]
      ∧ getField [(Line, "1".toList), (TypeField, "section".toList)] PrimitiveType = none := by
  decide

/-- C6, amended: processing the header line `resource_pools:` (just as `vm_types:`) before an
item line `- name: <item>` emits a section-primitive tag named `vm_types` whose `type`
attribute is `section` and which has no `ptype` attribute; the item line, processed next, emits
a tag named after the item, of the VM kind, whose `ptype` and `type` attributes are
`vm_types`. -/
theorem resource_pools_is_stored_as_vm_types (p : tagParser) (st : parseState) (lineNum : Int)
    (kw item : Str) (nextLine : Option Str)
    (hkw : kw = "resource_pools".toList ∨ kw = "vm_types".toList) (hitem : '\n' ∉ item) :
    ∃ st1 header st2 tag,
      processLine p st lineNum (kw ++ ":\n".toList)
          (some ("- name: ".toList ++ item ++ "\n".toList))
        = Step.continues st1 (some header)
      ∧ header.Name = "vm_types".toList
      ∧ header.Typ = Primitive
      ∧ getField header.Fields TypeField = some "section".toList
      ∧ getField header.Fields PrimitiveType = none
      ∧ processLine p st1 (lineNum + 1) ("- name: ".toList ++ item ++ "\n".toList) nextLine
        = Step.continues st2 (some tag)
      ∧ tag.Name = item
      ∧ tag.Typ = VM
      ∧ getField tag.Fields PrimitiveType = some "vm_types".toList
      ∧ getField tag.Fields TypeField = some "vm_types".toList := by
  have hcc : hasClassChar ("- name: ".toList ++ item ++ "\n".toList) = true := rfl
  have hrun : leadingRun ("- name: ".toList ++ item ++ "\n".toList) = [] := rfl
  have hfirst : ∃ st1 header,
      processLine p st lineNum (kw ++ ":\n".toList)
          (some ("- name: ".toList ++ item ++ "\n".toList))
        = Step.continues st1 (some header)
      ∧ header.Name = "vm_types".toList
      ∧ header.Typ = Primitive
      ∧ getField header.Fields TypeField = some "section".toList
      ∧ getField header.Fields PrimitiveType = none
      ∧ st1.pfx = [] ∧ st1.inStemcells = false ∧ st1.currentSection = VM
      ∧ st1.currentPrimitive = "vm_types".toList := by
    rcases hkw with rfl | rfl
    · have hs : sectionMatch ("resource_pools".toList ++ ":\n".toList)
          = some ("resource_pools".toList, []) := rfl
      simp only [processLine, hs, sectionRule, sectionPrefix_some, hcc, hrun, if_true]
      exact ⟨_, _, rfl, rfl, rfl, rfl, rfl, rfl, rfl, rfl, rfl⟩
    · have hs : sectionMatch ("vm_types".toList ++ ":\n".toList)
          = some ("vm_types".toList, []) := rfl
      simp only [processLine, hs, sectionRule, sectionPrefix_some, hcc, hrun, if_true]
      exact ⟨_, _, rfl, rfl, rfl, rfl, rfl, rfl, rfl, rfl, rfl⟩
  obtain ⟨st1, header, h1, h2, h3, h4, h5, hpfx, hstem, hsec, hprim⟩ := hfirst
  have hsecond := processLine_item p st1 (lineNum + 1) '-' item [] nextLine
    (by simp [hpfx]) (by simp [hpfx]) (Or.inl rfl) hitem
  simp only [hpfx, hstem, List.nil_append] at hsecond
  obtain ⟨tag, ht1, ht2, ht3, ht4, ht5⟩ := itemRule_continues p st1 (lineNum + 1)
    ("- name: ".toList ++ item ++ "\n".toList) item
  refine ⟨st1, header, { st1 with currentInstanceGroup := item }, tag,
    h1, h2, h3, h4, h5, ?_, ht2, ?_, ?_, ?_⟩
  · rw [← ht1]
    exact hsecond
  · rw [ht3, hsec]
  · rw [ht4, hprim]
  · rw [ht5, hprim]

/-- C6 (amended) at the manifest of the claim: the header `resource_pools:` and the item
`- name: rp1`, from the initial state. -/
theorem resource_pools_is_stored_as_vm_types_witness :
    ('\n' ∉ "rp1".toList)
      ∧ ∃ st1 header st2 tag,
          processLine manifest initialState 1 ("resource_pools".toList ++ ":\n".toList)
              (some ("- name: ".toList ++ "rp1".toList ++ "\n".toList))
            = Step.continues st1 (some header)
          ∧ header.Name = "vm_types".toList
          ∧ header.Typ = Primitive
          ∧ getField header.Fields TypeField = some "section".toList
          ∧ getField header.Fields PrimitiveType = none
          ∧ processLine manifest st1 (1 + 1) ("- name: ".toList ++ "rp1".toList ++ "\n".toList)
              none
            = Step.continues st2 (some tag)
          ∧ tag.Name = "rp1".toList
          ∧ tag.Typ = VM
          ∧ getField tag.Fields PrimitiveType = some "vm_types".toList
          ∧ getField tag.Fields TypeField = some "vm_types".toList :=
  ⟨by decide,
   resource_pools_is_stored_as_vm_types manifest initialState 1 "resource_pools".toList
     "rp1".toList none (Or.inl rfl) (by decide)⟩

/-- C7, as stated, fails: the item prefix derived from the lookahead `- name: a` is the empty
string, not `- `, and in `vm_types:` / `- name: a` / `  name: b` (followed by one more line, so
that the third line is processed) the line `  name: b` is recognized as a list item: `b` is
emitted as a VM-kind tag, like `a`. -/
theorem indented_name_scan :
    sectionPrefix [] (some "- name: a\n".toList) = some []
      ∧ Parse manifest "vm_types:\n- name: a\n  name: b\n\n".toList
        = some [{ Name := "vm_types".toList, File := "manifest.yml".toList,
                  Address := "/\\%1l\\%1c/".toList, Typ := Primitive,
                  Fields := [(Line, "1".toList), (TypeField, "section".toList)] },
                { Name := "a".toList, File := "manifest.yml".toList,
                  Address := "/\\%2l\\%4c/".toList, Typ := VM,
                  Fields := [(Line, "2".toList), (PrimitiveType, "vm_types".toList),
                             (TypeField, "vm_types".toList)] },
                { Name := "b".toList, File := "manifest.yml".toList,
                  Address := "/\\%3l\\%9c/".toList, Typ := VM,
                  Fields := [(Line, "3".toList), (PrimitiveType, "vm_types".toList),
                             (TypeField, "vm_types".toList)] }] := by
  decide

/-- C7, amended: after a section header (other than `stemcells:`) whose first item line is
`- name: <a>` at column one, the item prefix is the empty string and the stemcells flag is off;
both last until the next section header; and in every such state a processed line of the form
two spaces and `name: <b>` is recognized by the list-item rule (the class `[- ]` accepts its
first space): it emits a tag named `b`, of the kind of the section.  So in `vm_types:` /
`- name: a` / `  name: b`, once the third line is processed, `a` and `b` are both VM-kind
tags. -/
theorem indented_name_is_a_list_item (p : tagParser) (st : parseState) (lineNum : Int)
    (kw rest a b : Str) (hkw : kw ∈ sectionKeywords) (hns : kw ≠ "stemcells".toList)
    (hb : '\n' ∉ b) :
    (∃ st1 header,
        processLine p st lineNum (kw ++ ":".toList ++ rest)
            (some ("- name: ".toList ++ a ++ "\n".toList))
          = Step.continues st1 (some header)
        ∧ st1.pfx = [] ∧ st1.inStemcells = false)
      ∧ (∀ (st2 st3 : parseState) (n : Int) (line : Str) (next : Option Str)
          (emitted : Option Tag), sectionMatch line = none →
          processLine p st2 n line next = Step.continues st3 emitted →
          st3.pfx = st2.pfx ∧ st3.inStemcells = st2.inStemcells
            ∧ st3.currentSection = st2.currentSection)
      ∧ (∀ (st2 : parseState) (n : Int) (next : Option Str),
          st2.pfx = [] → st2.inStemcells = false →
          ∃ tag,
            processLine p st2 n ("  name: ".toList ++ b ++ "\n".toList) next
              = Step.continues { st2 with currentInstanceGroup := b } (some tag)
            ∧ tag.Name = b
            ∧ tag.Typ = st2.currentSection)
      ∧ (Parse manifest "vm_types:\n- name: a\n  name: b\n\n".toList).map
            (List.map (fun t => (t.Name, t.Typ)))
          = some [("vm_types".toList, Primitive), ("a".toList, VM), ("b".toList, VM)] := by
  refine ⟨?_, ?_, ?_, by decide⟩
  · have hcc : hasClassChar ("- name: ".toList ++ a ++ "\n".toList) = true := rfl
    have hrun : leadingRun ("- name: ".toList ++ a ++ "\n".toList) = [] := rfl
    simp only [processLine, sectionMatch_keyword _ _ hkw, sectionRule, sectionPrefix_some, hcc,
      hrun, if_true]
    refine ⟨_, _, rfl, rfl, ?_⟩
    simp only [sectionKeywords, List.mem_cons, List.mem_singleton, List.not_mem_nil,
      or_false] at hkw
    rcases hkw with rfl | rfl | rfl | rfl | rfl | rfl | rfl | rfl | rfl | rfl | rfl | rfl | rfl
    all_goals first | rfl | exact absurd rfl hns
  · intro st2 st3 n line next emitted hline h
    obtain ⟨h1, h2, h3, _⟩ := processLine_keeps_section p st2 st3 n line next emitted hline h
    exact ⟨h1, h2, h3⟩
  · intro st2 n next hpfx hstem
    have hstep := processLine_item p st2 n ' ' b [] next
      (by simp [hpfx]) (by simp [hpfx]) (Or.inr rfl) hb
    simp only [hpfx, hstem, List.nil_append] at hstep
    obtain ⟨tag, ht1, ht2, ht3, _, _⟩ := itemRule_continues p st2 n
      ("  name: ".toList ++ b ++ "\n".toList) b
    refine ⟨tag, ?_, ht2, ht3⟩
    rw [← ht1]
    exact hstep

/-- C7 (amended) at the manifest of the claim: the header `vm_types:`, the item `- name: a`
and the line `  name: b`. -/
theorem indented_name_is_a_list_item_witness :
    ("vm_types".toList ∈ sectionKeywords ∧ "vm_types".toList ≠ "stemcells".toList
        ∧ '\n' ∉ "b".toList)
      ∧ ∃ tag,
          processLine manifest
              { initialState with currentSection := VM, currentPrimitive := "vm_types".toList,
                                  currentInstanceGroup := "a".toList } 3
              ("  name: ".toList ++ "b".toList ++ "\n".toList) (some "\n".toList)
            = Step.continues
                { initialState with currentSection := VM, currentPrimitive := "vm_types".toList,
                                    currentInstanceGroup := "b".toList } (some tag)
          ∧ tag.Name = "b".toList
          ∧ tag.Typ = VM :=
  ⟨by decide,
   (indented_name_is_a_list_item manifest initialState 1 "vm_types".toList "\n".toList
      "a".toList "b".toList (by decide) (by decide) (by decide)).2.2.1
      { initialState with currentSection := VM, currentPrimitive := "vm_types".toList,
                          currentInstanceGroup := "a".toList } 3 (some "\n".toList) rfl rfl⟩

/-- C8, as stated, fails.  In the first manifest the line `  name: ignored` is processed while
the most recent section header is `stemcells:`, and it produces a tag, of the job kind: the jobs
prefix left by the earlier `  jobs:` line is empty and the job rule is tried in every section.
In the second manifest the item prefix is `(`: the line `(- alias: x` has the form
`<itemPrefix>[- ] alias: <v>`, but its pattern `^([- ] alias: (.*)` does not compile and the
scan panics instead of emitting a tag. -/
theorem name_line_in_stemcells_scan :
    Parse manifest
        ("instance_groups:\n- name: web\n  jobs:\n- name: db\n".toList
          ++ "stemcells:\n- alias: default\n  name: ignored\n\n".toList)
      = some [{ Name := "instance_groups".toList, File := "manifest.yml".toList,
                Address := "/\\%1l\\%1c/".toList, Typ := Primitive,
                Fields := [(Line, "1".toList), (TypeField, "section".toList)] },
              { Name := "web".toList, File := "manifest.yml".toList,
                Address := "/\\%2l\\%9c/".toList, Typ := InstanceGroup,
                Fields := [(Line, "2".toList), (PrimitiveType, "instance_groups".toList),
                           (TypeField, "instance_groups".toList)] },
              { Name := "db".toList, File := "manifest.yml".toList,
                Address := "/\\%4l\\%9c/".toList, Typ := InstanceGroup,
                Fields := [(Line, "4".toList), (PrimitiveType, "instance_groups".toList),
                           (TypeField, "instance_groups".toList)] },
              { Name := "stemcells".toList, File := "manifest.yml".toList,
                Address := "/\\%5l\\%1c/".toList, Typ := Primitive,
                Fields := [(Line, "5".toList), (TypeField, "section".toList)] },
              { Name := "default".toList, File := "manifest.yml".toList,
                Address := "/\\%6l\\%10c/".toList, Typ := Stemcell,
                Fields := [(Line, "6".toList), (PrimitiveType, "stemcells".toList),
                           (TypeField, "stemcells".toList)] },
              { Name := "ignored".toList, File := "manifest.yml".toList,
                Address := "/\\%7l\\%9c/".toList, Typ := Job,
                Fields := [(Line, "7".toList), (InstanceGroupType, "stemcells.default".toList),
                           (TypeField, "job".toList)] }]
      ∧ parse manifest "stemcells:\n(- alias: x\n\n".toList
        = { tags := [{ Name := "stemcells".toList, File := "manifest.yml".toList,
                       Address := "/\\%1l\\%1c/".toList, Typ := Primitive,
                       Fields := [(Line, "1".toList), (TypeField, "section".toList)] }],
            ending := Ending.panicked } := by
  decide

/-- C8, amended: while the most recent section header is `stemcells:` and the item prefix holds
no pattern-syntax character, a processed line `<itemPrefix>[- ] alias: <v>` emits a
stemcell-kind tag named `v`; a processed line `<itemPrefix>[- ] name: <v>` is not matched by
the list-item rule and is handed to the job rule: when the job pattern, built from the current
jobs prefix, matches the line, the line emits a tag of the job kind named by the captured text,
and when the pattern does not match, the line emits no tag; the state is left as it is.  With a
jobs prefix without pattern-syntax characters the job pattern matches exactly the lines that
start with the jobs prefix, one `-` or space and ` name: `.  For `stemcells:` /
`- alias: default` / `  name: ignored` the only item tag is that of `default`. -/
theorem stemcells_items_match_alias (p : tagParser) (st : parseState) (lineNum : Int)
    (c : Char) (v : Str) (nextLine : Option Str)
    (hstem : st.inStemcells = true) (hsec : st.currentSection = Stemcell)
    (hlit : ∀ ch ∈ st.pfx, ch ∉ metaChars) (hcls : ∀ ch ∈ st.pfx, ch ∉ classChars)
    (hc : c = '-' ∨ c = ' ') (hv : '\n' ∉ v) :
    (∃ tag,
        processLine p st lineNum (st.pfx ++ c :: (" alias: ".toList ++ (v ++ "\n".toList)))
            nextLine
          = Step.continues { st with currentInstanceGroup := v } (some tag)
        ∧ tag.Name = v
        ∧ tag.Typ = Stemcell)
      ∧ (∀ name,
          lineMatch p.regexp st.jobsPrefix " name: ".toList true
              (st.pfx ++ c :: (" name: ".toList ++ (v ++ "\n".toList))) = Found.found name →
          ∃ tag,
            processLine p st lineNum (st.pfx ++ c :: (" name: ".toList ++ (v ++ "\n".toList)))
                nextLine
              = Step.continues st (some tag)
            ∧ tag.Name = name
            ∧ tag.Typ = Job)
      ∧ (lineMatch p.regexp st.jobsPrefix " name: ".toList true
            (st.pfx ++ c :: (" name: ".toList ++ (v ++ "\n".toList))) = Found.noMatch →
          processLine p st lineNum (st.pfx ++ c :: (" name: ".toList ++ (v ++ "\n".toList)))
              nextLine
            = Step.continues st none)
      ∧ ((∀ ch ∈ st.jobsPrefix, ch ∉ metaChars) →
          (∀ d rest, (d = '-' ∨ d = ' ') →
            st.pfx ++ c :: (" name: ".toList ++ (v ++ "\n".toList))
              = st.jobsPrefix ++ d :: (" name: ".toList ++ rest) →
            ∃ tag,
              processLine p st lineNum
                  (st.pfx ++ c :: (" name: ".toList ++ (v ++ "\n".toList))) nextLine
                = Step.continues st (some tag)
              ∧ tag.Name = untilNewline rest
              ∧ tag.Typ = Job)
          ∧ ((¬ ∃ d rest, (d = '-' ∨ d = ' ')
                ∧ st.pfx ++ c :: (" name: ".toList ++ (v ++ "\n".toList))
                    = st.jobsPrefix ++ d :: (" name: ".toList ++ rest)) →
              processLine p st lineNum
                  (st.pfx ++ c :: (" name: ".toList ++ (v ++ "\n".toList))) nextLine
                = Step.continues st none))
      ∧ (∀ st' emitted,
          processLine p st lineNum (st.pfx ++ c :: (" name: ".toList ++ (v ++ "\n".toList)))
              nextLine
            = Step.continues st' emitted →
          st' = st ∧ (emitted = none ∨ ∃ tag, emitted = some tag ∧ tag.Typ = Job))
      ∧ Parse manifest "stemcells:\n- alias: default\n  name: ignored\n\n".toList
          = Parse manifest "stemcells:\n- alias: default\n  name: ignored\n".toList
      ∧ Parse manifest "stemcells:\n- alias: default\n  name: ignored\n".toList
          = some [{ Name := "stemcells".toList, File := "manifest.yml".toList,
                    Address := "/\\%1l\\%1c/".toList, Typ := Primitive,
                    Fields := [(Line, "1".toList), (TypeField, "section".toList)] },
                  { Name := "default".toList, File := "manifest.yml".toList,
                    Address := "/\\%2l\\%10c/".toList, Typ := Stemcell,
                    Fields := [(Line, "2".toList), (PrimitiveType, "stemcells".toList),
                               (TypeField, "stemcells".toList)] }] := by
  have hfound : ∀ name,
      lineMatch p.regexp st.jobsPrefix " name: ".toList true
          (st.pfx ++ c :: (" name: ".toList ++ (v ++ "\n".toList))) = Found.found name →
      ∃ tag,
        processLine p st lineNum (st.pfx ++ c :: (" name: ".toList ++ (v ++ "\n".toList)))
            nextLine
          = Step.continues st (some tag)
        ∧ tag.Name = name
        ∧ tag.Typ = Job := by
    intro name h
    rw [processLine_name_in_stemcells p st lineNum c _ nextLine hstem hlit hcls hc]
    simp only [jobOrJobsList, h]
    obtain ⟨tag, ht1, ht2, ht3, _, _⟩ := jobRule_continues p st lineNum
      (st.pfx ++ c :: (" name: ".toList ++ (v ++ "\n".toList))) name
    exact ⟨tag, ht1, ht2, ht3⟩
  have hnone :
      lineMatch p.regexp st.jobsPrefix " name: ".toList true
          (st.pfx ++ c :: (" name: ".toList ++ (v ++ "\n".toList))) = Found.noMatch →
      processLine p st lineNum (st.pfx ++ c :: (" name: ".toList ++ (v ++ "\n".toList)))
          nextLine
        = Step.continues st none := by
    intro h
    rw [processLine_name_in_stemcells p st lineNum c _ nextLine hstem hlit hcls hc]
    simp only [jobOrJobsList, h]
    exact jobsListRule_name_line p st c _ nextLine hlit hc
  refine ⟨?_, hfound, hnone, ?_, ?_, ?_, by decide⟩
  · have hstep := processLine_item p st lineNum c v [] nextLine hlit hcls hc hv
    simp only [hstem, if_true] at hstep
    obtain ⟨tag, ht1, ht2, ht3, _, _⟩ := itemRule_continues p st lineNum
      (st.pfx ++ c :: (" alias: ".toList ++ (v ++ "\n".toList))) v
    refine ⟨tag, ?_, ht2, ?_⟩
    · rw [← ht1]
      exact hstep
    · rw [ht3, hsec]
  · intro hjl
    refine ⟨?_, ?_⟩
    · intro d rest hd hl
      exact hfound _ ((lineMatch_literal_found _ _ _ _ _ hjl).2 ⟨d, rest, hd, hl, rfl⟩)
    · intro hno
      exact hnone ((lineMatch_literal_noMatch _ _ _ _ hjl).2 hno)
  · intro st' emitted h
    rw [processLine_name_in_stemcells p st lineNum c _ nextLine hstem hlit hcls hc] at h
    simp only [jobOrJobsList] at h
    split at h
    · exact Step.noConfusion h
    · exact Step.noConfusion h
    · rename_i name _
      obtain ⟨tag, ht1, _, ht3, _, _⟩ := jobRule_continues p st lineNum
        (st.pfx ++ c :: (" name: ".toList ++ (v ++ "\n".toList))) name
      rw [ht1] at h
      simp only [Step.continues.injEq] at h
      obtain ⟨rfl, rfl⟩ := h
      exact ⟨rfl, Or.inr ⟨tag, rfl, ht3⟩⟩
    · rw [jobsListRule_name_line p st c _ nextLine hlit hc] at h
      simp only [Step.continues.injEq] at h
      obtain ⟨rfl, rfl⟩ := h
      exact ⟨rfl, Or.inl rfl⟩
  · decide

/-- C8 (amended) at the manifest of the claim: the state left by the header `stemcells:` before
`- alias: default`, and the lines `- alias: default` and `  name: ignored`. -/
theorem stemcells_items_match_alias_witness :
    processLine manifest initialState 1 "stemcells:\n".toList (some "- alias: default\n".toList)
        = Step.continues
            { initialState with currentSection := Stemcell, inStemcells := true,
                                currentPrimitive := "stemcells".toList }
            (some { Name := "stemcells".toList, File := "manifest.yml".toList,
                    Address := "/\\%1l\\%1c/".toList, Typ := Primitive,
                    Fields := [(Line, "1".toList), (TypeField, "section".toList)] })
      ∧ (∃ tag,
          processLine manifest
              { initialState with currentSection := Stemcell, inStemcells := true,
                                  currentPrimitive := "stemcells".toList } 2
              ([] ++ '-' :: (" alias: ".toList ++ ("default".toList ++ "\n".toList)))
              (some "  name: ignored\n".toList)
            = Step.continues
                { initialState with currentSection := Stemcell, inStemcells := true,
                                    currentPrimitive := "stemcells".toList,
                                    currentInstanceGroup := "default".toList } (some tag)
          ∧ tag.Name = "default".toList
          ∧ tag.Typ = Stemcell) :=
  ⟨by decide,
   (stemcells_items_match_alias manifest
      { initialState with currentSection := Stemcell, inStemcells := true,
                          currentPrimitive := "stemcells".toList } 2 '-' "default".toList
      (some "  name: ignored\n".toList) rfl rfl (by decide) (by decide) (Or.inl rfl)
      (by decide)).1⟩

/-- C9: the jobs-list introducer `  jobs:` followed by an empty line.  The lookahead has no
character of the class, `IndexAny` returns -1 and the slice `(*nextLine)[0:index]` panics; the
section rule, in the same situation, sets the item prefix to the empty string. -/
theorem jobs_introducer_before_blank_line_panics :
    parse manifest "instance_groups:\n- name: web\n  jobs:\n\n".toList
        = { tags := [{ Name := "instance_groups".toList, File := "manifest.yml".toList,
                       Address := "/\\%1l\\%1c/".toList, Typ := Primitive,
                       Fields := [(Line, "1".toList), (TypeField, "section".toList)] },
                     { Name := "web".toList, File := "manifest.yml".toList,
                       Address := "/\\%2l\\%9c/".toList, Typ := InstanceGroup,
                       Fields := [(Line, "2".toList), (PrimitiveType, "instance_groups".toList),
                                  (TypeField, "instance_groups".toList)] }],
            ending := Ending.panicked }
      ∧ Parse manifest "instance_groups:\n- name: web\n  jobs:\n\n".toList = none
      ∧ jobsListPrefix "####".toList (some "\n".toList) = none
      ∧ sectionPrefix "####".toList (some "\n".toList) = some [] := by
  decide

/-- C10, as stated, fails: the tag `bareTag` has no non-empty attribute, and its serialized line
does not end with the kind code `i` but with a TAB after it. -/
theorem String_bareTag_trailing_tab :
    bareTag.String = "web\tm.yml\t/\\%2l\\%9c/;\"\ti\t".toList
      ∧ bareTag.String ≠ claimedLine bareTag (sortStrings (nonEmptyPairs bareTag)) := by
  decide

/-- C10, amended: for every tag `t`, `String(t)` is name, TAB, file, TAB, address, the marker,
TAB, the kind code and one more TAB, followed by the `key:value` strings of the attributes with
a non-empty value, in ascending order and separated by single TABs, and nothing else; with no
non-empty attribute the line ends with the TAB that follows the kind code. -/
theorem String_format (t : Tag) :
    (∃ groups : List Str,
        t.String = t.Name ++ "\t".toList ++ t.File ++ "\t".toList ++ t.Address ++ ";\"".toList
            ++ "\t".toList ++ t.Typ ++ "\t".toList ++ Join groups "\t".toList
          ∧ groups.Perm (nonEmptyPairs t)
          ∧ groups.Sorted (fun a b => strLE a b = true))
      ∧ ((∀ kv ∈ t.Fields, kv.2 = []) →
          t.String = t.Name ++ "\t".toList ++ t.File ++ "\t".toList ++ t.Address ++ ";\"".toList
            ++ "\t".toList ++ t.Typ ++ "\t".toList) := by
  constructor
  · refine ⟨sortStrings (renderFields t.Fields), ?_, ?_, sortStrings_sorted _⟩
    · simp [Tag.String, List.append_assoc]
    · rw [nonEmptyPairs, ← renderFields_eq]
      exact sortStrings_perm _
  · intro h
    have hr : renderFields t.Fields = [] := by
      rw [renderFields_eq]
      simp only [List.map_eq_nil_iff, List.filter_eq_nil_iff]
      intro kv hkv
      simp [h kv hkv]
    simp [Tag.String, hr, sortStrings, Join, List.intercalate, List.append_assoc]

/-! ## Facts about attributes and their serialization -/

theorem String_eq_lineHead (t : Tag) :
    t.String = lineHead t ++ Join (sortStrings (renderFields t.Fields)) "\t".toList := by
  simp [Tag.String, lineHead, List.append_assoc]

theorem renderFields_setField_empty (fs : FieldMap) (k : TagField) :
    renderFields (setField fs k []) = renderFields (deleteField fs k) := by
  induction fs with
  | nil => simp [setField, deleteField, renderFields]
  | cons kv rest ih =>
    obtain ⟨k', v'⟩ := kv
    by_cases h : k' = k
    · simp [setField, deleteField, h, renderFields]
    · simp only [setField, deleteField, h, if_false, renderFields, ih]

theorem mem_renderFields (fs : FieldMap) (g : Str) :
    g ∈ renderFields fs ↔ ∃ k v, (k, v) ∈ fs ∧ v ≠ [] ∧ g = k ++ ":".toList ++ v := by
  rw [renderFields_eq]
  simp only [List.mem_map, List.mem_filter, decide_eq_true_eq, Prod.exists]
  constructor
  · rintro ⟨k, v, ⟨hm, hv⟩, rfl⟩
    exact ⟨k, v, hm, hv, rfl⟩
  · rintro ⟨k, v, hm, hv, rfl⟩
    exact ⟨k, v, ⟨hm, hv⟩, rfl⟩

theorem mem_setField (fs : FieldMap) (k : TagField) (v : Str) (kv : TagField × Str)
    (h : kv ∈ setField fs k v) : kv = (k, v) ∨ (kv ∈ fs ∧ (kv.1 = k →
      ¬ (fs.map Prod.fst).Nodup)) := by
  induction fs with
  | nil =>
    simp only [setField, List.mem_singleton] at h
    exact Or.inl h
  | cons e rest ih =>
    obtain ⟨k', v'⟩ := e
    by_cases hk : k' = k
    · simp only [setField, hk, if_true, List.mem_cons] at h
      rcases h with h | h
      · exact Or.inl h
      · right
        refine ⟨by simp [h], ?_⟩
        intro hkv hnd
        simp only [List.map_cons, List.nodup_cons, List.mem_map, Prod.exists,
          exists_and_right, exists_eq_right, not_exists] at hnd
        obtain ⟨a, b⟩ := kv
        simp only at hkv
        subst hkv
        exact hnd.1 b (by rw [hk]; exact h)
    · simp only [setField, hk, if_false, List.mem_cons] at h
      rcases h with h | h
      · right
        refine ⟨by simp [h], ?_⟩
        intro hkv
        rw [h] at hkv
        exact absurd hkv hk
      · rcases ih h with h1 | ⟨h1, h2⟩
        · exact Or.inl h1
        · right
          refine ⟨by simp [h1], ?_⟩
          intro hkv hnd
          simp only [List.map_cons, List.nodup_cons] at hnd
          exact h2 hkv hnd.2

/-- C11: an attribute with an empty value is dropped from the serialized line.  For every tag
`t` and key `k`, the line of `t` with `k` set to the empty string is the line of `t` with `k`
deleted; that line is the fixed part followed by the TAB-joined pairs, each of which is
`key:value` for an entry of the map with a non-empty value, and (keys being unique) none of
which belongs to the key `k`. -/
theorem empty_value_is_dropped (t : Tag) (k : TagField) :
    Tag.String { t with Fields := setField t.Fields k [] }
        = Tag.String { t with Fields := deleteField t.Fields k }
      ∧ ∃ pairs : List Str,
          Tag.String { t with Fields := setField t.Fields k [] }
              = lineHead t ++ Join pairs "\t".toList
            ∧ (∀ g ∈ pairs, ∃ k' v', (k', v') ∈ setField t.Fields k [] ∧ v' ≠ []
                ∧ g = k' ++ ":".toList ++ v')
            ∧ ((t.Fields.map Prod.fst).Nodup →
                ∀ g ∈ pairs, ∃ k' v', (k', v') ∈ t.Fields ∧ k' ≠ k ∧ v' ≠ []
                  ∧ g = k' ++ ":".toList ++ v') := by
  have hpairs : ∀ g ∈ sortStrings (renderFields (setField t.Fields k [])),
      ∃ k' v', (k', v') ∈ setField t.Fields k [] ∧ v' ≠ [] ∧ g = k' ++ ":".toList ++ v' := by
    intro g hg
    exact (mem_renderFields _ g).1 ((sortStrings_perm _).mem_iff.1 hg)
  refine ⟨?_, sortStrings (renderFields (setField t.Fields k [])), ?_, hpairs, ?_⟩
  · simp only [Tag.String, renderFields_setField_empty]
  · rw [String_eq_lineHead]
    rfl
  · intro hnd g hg
    obtain ⟨k', v', hm, hv, rfl⟩ := hpairs g hg
    rcases mem_setField _ _ _ _ hm with h | ⟨h1, h2⟩
    · simp only [Prod.mk.injEq] at h
      exact absurd h.2 hv
    · exact ⟨k', v', h1, fun hk => h2 hk hnd, hv, rfl⟩

theorem renderFields_perm (fs gs : FieldMap) (h : fs.Perm gs) :
    (renderFields fs).Perm (renderFields gs) := by
  rw [renderFields_eq, renderFields_eq]
  exact (h.filter _).map _

theorem sortStrings_congr (xs ys : List Str) (h : xs.Perm ys) :
    sortStrings xs = sortStrings ys :=
  sortStrings_unique ys (sortStrings xs) ((sortStrings_perm xs).trans h) (sortStrings_sorted xs)

/-- The serialized line depends on the attributes as a collection only: permuting the
enumeration of the map does not change it. -/
theorem String_perm (t1 t2 : Tag) (hn : t1.Name = t2.Name) (hf : t1.File = t2.File)
    (ha : t1.Address = t2.Address) (hk : t1.Typ = t2.Typ) (h : t1.Fields.Perm t2.Fields) :
    t1.String = t2.String := by
  simp only [Tag.String, hn, hf, ha, hk,
    sortStrings_congr _ _ (renderFields_perm _ _ h)]

theorem nodup_of_nodup_keys (fs : FieldMap) (h : (fs.map Prod.fst).Nodup) : fs.Nodup :=
  List.Nodup.of_map Prod.fst h

/-- C12: serialization does not depend on the order of the attributes.  Two tags that agree on
name, file, address and kind and whose attribute maps (unique keys) hold the same key/value
pairs, enumerated in whatever orders, have the same serialized line. -/
theorem String_independent_of_order (t1 t2 : Tag) (hn : t1.Name = t2.Name)
    (hf : t1.File = t2.File) (ha : t1.Address = t2.Address) (hk : t1.Typ = t2.Typ)
    (hu1 : (t1.Fields.map Prod.fst).Nodup) (hu2 : (t2.Fields.map Prod.fst).Nodup)
    (hsame : ∀ kv, kv ∈ t1.Fields ↔ kv ∈ t2.Fields) :
    t1.String = t2.String :=
  String_perm t1 t2 hn hf ha hk
    ((List.perm_ext_iff_of_nodup (nodup_of_nodup_keys _ hu1) (nodup_of_nodup_keys _ hu2)).2 hsame)

/-- C12 at two concrete tags: the attributes `line`, `ptype`, `type` and the same attributes in
the order `type`, `ptype`, `line`. -/
theorem String_independent_of_order_witness :
    tagLineFirst.Fields ≠ tagLineLast.Fields
      ∧ tagLineFirst.String = tagLineLast.String
      ∧ tagLineFirst.String
          = ("web\tmanifest.yml\t/\\%2l\\%9c/;\"\ti\t".toList
              ++ "line:2\tptype:instance_groups\ttype:instance_groups".toList) :=
  ⟨by decide,
   String_independent_of_order tagLineFirst tagLineLast rfl rfl rfl rfl (by decide) (by decide)
     (by
       intro kv
       simp only [tagLineFirst, tagLineLast, List.mem_cons, List.mem_singleton,
         List.not_mem_nil, or_false]
       tauto),
   by decide⟩

theorem toDigitsCore_ne_nil (fuel n : Nat) (ds : List Char) (h : ds ≠ [] ∨ 0 < fuel) :
    Nat.toDigitsCore 10 fuel n ds ≠ [] := by
  induction fuel generalizing n ds with
  | zero =>
    rcases h with h | h
    · simpa [Nat.toDigitsCore] using h
    · omega
  | succ f ih =>
    simp only [Nat.toDigitsCore]
    split_ifs
    · simp
    · exact ih _ _ (Or.inl (by simp))

theorem Itoa_ne_nil (n : Int) : Itoa n ≠ [] := by
  cases n with
  | ofNat m => exact toDigitsCore_ne_nil _ _ _ (Or.inr (Nat.succ_pos m))
  | negSucc m => simp [Itoa]

/-- C13: for all arguments, `NewTag` returns a tag whose name, file, address and kind are the
arguments and whose attribute map holds exactly one entry, the key `line` with the decimal
rendering of the line number (for a line number that is not negative, the digits of
`Nat.repr`); its serialized line is name, TAB, file, TAB, address, the marker, TAB, kind, TAB
and `line:<n>`. -/
theorem NewTag_spec (name file addr : Str) (line : Int) (kind : TagType) :
    (NewTag name file addr line kind).Name = name
      ∧ (NewTag name file addr line kind).File = file
      ∧ (NewTag name file addr line kind).Address = addr
      ∧ (NewTag name file addr line kind).Typ = kind
      ∧ (NewTag name file addr line kind).Fields = [(Line, Itoa line)]
      ∧ Itoa line = (if 0 ≤ line then (Nat.repr line.toNat).toList
                      else '-' :: (Nat.repr (-line).toNat).toList)
      ∧ (NewTag name file addr line kind).String
          = name ++ "\t".toList ++ file ++ "\t".toList ++ addr ++ ";\"".toList ++ "\t".toList
              ++ kind ++ "\t".toList ++ "line:".toList ++ Itoa line := by
  refine ⟨rfl, rfl, rfl, rfl, rfl, ?_, ?_⟩
  · cases line with
    | ofNat m =>
      have h0 : (0 : Int) ≤ Int.ofNat m := Int.ofNat_nonneg m
      rw [if_pos h0]
      rfl
    | negSucc m =>
      have h1 : ¬ (0 ≤ Int.negSucc m) := by simp
      rw [if_neg h1]
      rfl
  · have hne := Itoa_ne_nil line
    have hr : renderFields [(Line, Itoa line)] = [Line ++ ":".toList ++ Itoa line] := by
      cases h : Itoa line with
      | nil => exact absurd h hne
      | cons c cs => simp [renderFields]
    simp only [Tag.String, NewTag, hr, sortStrings, List.insertionSort, List.orderedInsert,
      Join, List.intercalate, List.intersperse, List.flatten, List.append_nil]
    simp [Line, List.append_assoc]

/-- No declared key is the beginning of another: two rendered pairs with different declared
keys compare as their keys do, whatever the values. -/
theorem renderPair_order (k1 k2 : TagField) (v1 v2 : Str) (h1 : k1 ∈ declaredKeys)
    (h2 : k2 ∈ declaredKeys) (hne : k1 ≠ k2) :
    strLE (k1 ++ ":".toList ++ v1) (k2 ++ ":".toList ++ v2) = strLE k1 k2 := by
  simp only [declaredKeys, List.mem_cons, List.mem_singleton, List.not_mem_nil, or_false]
    at h1 h2
  rcases h1 with rfl | rfl | rfl | rfl | rfl | rfl | rfl | rfl | rfl | rfl | rfl | rfl | rfl <;>
    rcases h2 with rfl | rfl | rfl | rfl | rfl | rfl | rfl | rfl | rfl | rfl | rfl | rfl | rfl <;>
    first | rfl | exact absurd rfl hne

theorem nodup_keys_eq (fs : FieldMap) (hu : (fs.map Prod.fst).Nodup) (a b : TagField × Str)
    (ha : a ∈ fs) (hb : b ∈ fs) (h : a.1 = b.1) : a = b :=
  List.inj_on_of_nodup_map hu ha hb h

theorem nonEmptyEntries_keys (fs : FieldMap) (hu : (fs.map Prod.fst).Nodup) :
    ((nonEmptyEntries fs).map Prod.fst).Nodup :=
  (List.Nodup.sublist ((List.filter_sublist fs).map Prod.fst) hu)

/-- C19: for every tag whose attribute keys (unique, as in a map) all belong to the thirteen
declared keys, sorting the rendered `key:value` pairs gives the same order as sorting the
attributes by key alone, whatever the values: the serialized line is the fixed part followed by
the TAB-joined pairs of the attributes with a non-empty value, in strictly ascending order of
their keys. -/
theorem attributes_in_key_order (t : Tag) (hkeys : ∀ kv ∈ t.Fields, kv.1 ∈ declaredKeys)
    (hu : (t.Fields.map Prod.fst).Nodup) :
    sortStrings ((nonEmptyEntries t.Fields).map renderPair)
        = (sortByKey (nonEmptyEntries t.Fields)).map renderPair
      ∧ t.String
          = lineHead t ++ Join ((sortByKey (nonEmptyEntries t.Fields)).map renderPair) "\t".toList
      ∧ (sortByKey (nonEmptyEntries t.Fields)).Pairwise
          (fun a b => strLE a.1 b.1 = true ∧ a.1 ≠ b.1) := by
  have hmem : ∀ a ∈ nonEmptyEntries t.Fields, a ∈ t.Fields := fun a ha =>
    (List.mem_filter.1 ha).1
  have hord : ∀ a ∈ nonEmptyEntries t.Fields, ∀ b ∈ nonEmptyEntries t.Fields,
      (strLE a.1 b.1 = true ↔ strLE (renderPair a) (renderPair b) = true) := by
    intro a ha b hb
    by_cases hab : a.1 = b.1
    · have := nodup_keys_eq t.Fields hu a b (hmem a ha) (hmem b hb) hab
      subst this
      simp [strLE_refl]
    · rw [renderPair, renderPair,
        renderPair_order a.1 b.1 a.2 b.2 (hkeys a (hmem a ha)) (hkeys b (hmem b hb)) hab]
  have hsort : sortStrings ((nonEmptyEntries t.Fields).map renderPair)
      = (sortByKey (nonEmptyEntries t.Fields)).map renderPair :=
    (List.map_insertionSort (fun a b : TagField × Str => strLE a.1 b.1 = true)
      (fun a b : Str => strLE a b = true) renderPair _ hord).symm
  refine ⟨hsort, ?_, ?_⟩
  · rw [String_eq_lineHead, renderFields_eq, ← hsort]
    rfl
  · have hs : (sortByKey (nonEmptyEntries t.Fields)).Sorted
        (fun a b => strLE a.1 b.1 = true) :=
      @List.sorted_insertionSort _ (fun a b : TagField × Str => strLE a.1 b.1 = true) _
        ⟨fun a b => strLE_total a.1 b.1⟩ ⟨fun _ _ _ hab hbc => strLE_trans hab hbc⟩ _
    have hnd : ((sortByKey (nonEmptyEntries t.Fields)).map Prod.fst).Nodup :=
      ((List.perm_insertionSort _ _).map Prod.fst).nodup_iff.2
        (nonEmptyEntries_keys t.Fields hu)
    have hnd' : (sortByKey (nonEmptyEntries t.Fields)).Pairwise (fun a b => a.1 ≠ b.1) := by
      rw [List.Nodup, List.pairwise_map] at hnd
      exact hnd
    exact List.Pairwise.imp₂ (fun a b h1 h2 => ⟨h1, h2⟩) hs hnd'

/-- C19 at a concrete tag: the attributes `type`, `ptype` and `line` of an item tag appear in
the order `line`, `ptype`, `type`. -/
theorem attributes_in_key_order_witness :
    (sortByKey (nonEmptyEntries tagLineLast.Fields)).map Prod.fst
        = [Line, PrimitiveType, TypeField]
      ∧ sortStrings ((nonEmptyEntries tagLineLast.Fields).map renderPair)
        = (sortByKey (nonEmptyEntries tagLineLast.Fields)).map renderPair :=
  ⟨by decide,
   (attributes_in_key_order tagLineLast (by decide) (by decide)).1⟩

/-! ## The steps and the points of a scan -/

theorem headersAfter_eq (hs : List Str) (line : Str) :
    headersAfter hs line = hs ++ headersOf [line] := by
  unfold headersAfter headersOf
  cases h : sectionMatch line with
  | none => simp [h]
  | some m =>
    obtain ⟨kw, t⟩ := m
    simp [h]

/-- The tags of a run of the loop are the tags on entry followed by the tags its steps append,
in order. -/
theorem loopSteps_tags (p : tagParser) (reads : List Str) :
    ∀ (st : parseState) (hs : List Str) (n : Int) (tags : List Tag) (line : Str),
      (loop p st n tags line reads).tags
        = tags ++ (loopSteps p st hs n tags line reads).filterMap ScanStep.emitted := by
  induction reads with
  | nil => intro st hs n tags line; simp [loop, loopSteps]
  | cons nl reads ih =>
    intro st hs n tags line
    unfold loop loopSteps
    cases hstep : processLine p st n line (some nl) with
    | continues st' emitted =>
      simp only []
      rw [ih st' (headersAfter hs line) (n + 1) (tags ++ emitted.toList) nl]
      cases emitted <;> simp [List.filterMap_cons]
    | panics => simp
    | unknown => simp

/-- The tags of a scan are the tags its steps append, in order. -/
theorem scanSteps_tags (p : tagParser) (input : Str) :
    (parse p input).tags = (scanSteps p input).filterMap ScanStep.emitted := by
  unfold parse scanSteps
  cases readLines input with
  | nil => rfl
  | cons nl reads =>
    have := loopSteps_tags p reads initialState [] 1 [] nl
    simpa using this

/-- Every step of a run of the loop processes the line of its number in the state of its point,
and a property of the state and the processed headers that holds on entry and is kept by every
step holds at the point of every step. -/
theorem loopSteps_spec (p : tagParser) (lines : List Str) (I : parseState → List Str → Prop)
    (hstep : ∀ st hs n line nl st' e, line ∈ lines → nl ∈ lines → I st hs →
      processLine p st n line (some nl) = Step.continues st' e → I st' (headersAfter hs line))
    (reads : List Str) :
    ∀ (done : List Str) (line : Str) (st : parseState) (hs : List Str) (n : Int)
      (tags : List Tag),
      lines = done ++ line :: reads → n = ((done.length + 1 : Nat) : Int) →
      hs = headersOf done → I st hs →
      ∀ s ∈ loopSteps p st hs n tags line reads,
        I s.point.state s.point.headers ∧ isStepOf p lines s := by
  induction reads with
  | nil =>
    intro done line st hs n tags _ _ _ _ s hs'
    simp [loopSteps] at hs'
  | cons nl reads ih =>
    intro done line st hs n tags hl hn hh hI s hmem
    unfold loopSteps at hmem
    have hline : lines.get? done.length = some line := by
      rw [hl, List.get?_eq_getElem?, List.getElem?_append_right (le_refl _)]
      simp
    have hl' : lines = (done ++ [line]) ++ nl :: reads := by simp [hl]
    have hnl : lines.get? (done.length + 1) = some nl := by
      have : (done ++ [line]).length = done.length + 1 := by simp
      rw [hl', ← this, List.get?_eq_getElem?, List.getElem?_append_right (le_refl _)]
      simp
    cases hs1 : processLine p st n line (some nl) with
    | panics => rw [hs1] at hmem; simp at hmem
    | unknown => rw [hs1] at hmem; simp at hmem
    | continues st' emitted =>
      rw [hs1] at hmem
      simp only [List.mem_cons] at hmem
      rcases hmem with rfl | hmem
      · refine ⟨hI, done.length, hn, hline, hnl, ?_, st', hs1⟩
        simp only [hh, hl, List.take_left']
      · refine ih (done ++ [line]) nl st' _ (n + 1) _ hl' (by simp [hn]) ?_ ?_ s hmem
        · rw [headersAfter_eq, hh]
          simp [headersOf]
        · exact hstep st hs n line nl st' emitted (List.get?_mem hline) (List.get?_mem hnl)
            hI hs1

/-- Every step of a scan processes the line of its number in the state of its point, and a
property of the state and the processed headers that holds on entry of the loop and is kept by
every step holds at the point of every step. -/
theorem scanSteps_spec (p : tagParser) (input : Str) (I : parseState → List Str → Prop)
    (hstep : ∀ st hs n line nl st' e, line ∈ readLines input → nl ∈ readLines input →
      I st hs → processLine p st n line (some nl) = Step.continues st' e →
      I st' (headersAfter hs line))
    (h0 : I initialState []) :
    ∀ s ∈ scanSteps p input, I s.point.state s.point.headers ∧ isStepOf p (readLines input) s := by
  intro s hs
  unfold scanSteps at hs
  cases hr : readLines input with
  | nil => rw [hr] at hs; simp at hs
  | cons nl reads =>
    rw [hr] at hs hstep
    exact loopSteps_spec p (nl :: reads) I hstep reads [] nl initialState [] 1 [] rfl rfl rfl
      h0 s hs

/-- A property of the state and the processed headers that holds on entry of the loop and is
kept by every step holds at every point of a run of the loop. -/
theorem loopPoints_invariant (p : tagParser) (I : parseState → List Str → Prop)
    (hstep : ∀ st hs n line nl st' e, I st hs →
      processLine p st n line (some nl) = Step.continues st' e → I st' (headersAfter hs line))
    (reads : List Str) :
    ∀ (st : parseState) (hs : List Str) (n : Int) (tags : List Tag) (line : Str),
      I st hs → ∀ x ∈ loopPoints p st hs n tags line reads, I x.state x.headers := by
  induction reads with
  | nil =>
    intro st hs n tags line hI x hx
    simp only [loopPoints, List.mem_singleton] at hx
    subst hx
    exact hI
  | cons nl reads ih =>
    intro st hs n tags line hI x hx
    simp only [loopPoints, List.mem_cons] at hx
    rcases hx with hx | hx
    · subst hx
      exact hI
    · cases hs1 : processLine p st n line (some nl) with
      | continues st' emitted =>
        rw [hs1] at hx
        exact ih st' _ (n + 1) _ nl (hstep st hs n line nl st' emitted hI hs1) x hx
      | panics => rw [hs1] at hx; simp at hx
      | unknown => rw [hs1] at hx; simp at hx

/-- A property of the state and the processed headers that holds on entry of the loop and is
kept by every step holds at every point of a scan. -/
theorem scanPoints_invariant (p : tagParser) (input : Str) (I : parseState → List Str → Prop)
    (hstep : ∀ st hs n line nl st' e, I st hs →
      processLine p st n line (some nl) = Step.continues st' e → I st' (headersAfter hs line))
    (h0 : I initialState []) :
    ∀ x ∈ scanPoints p input, I x.state x.headers := by
  intro x hx
  unfold scanPoints at hx
  cases hr : readLines input with
  | nil =>
    rw [hr] at hx
    simp only [List.mem_singleton] at hx
    subst hx
    exact h0
  | cons nl reads =>
    rw [hr] at hx
    exact loopPoints_invariant p I hstep reads initialState [] 1 [] nl h0 x hx

/-- The last point of a run of the loop holds the tags of the scan. -/
theorem loopPoints_tags (p : tagParser) (reads : List Str) :
    ∀ (st : parseState) (hs : List Str) (n : Int) (tags : List Tag) (line : Str),
      ((loopPoints p st hs n tags line reads).getLast?).map ScanPoint.tags
        = some (loop p st n tags line reads).tags := by
  induction reads with
  | nil => intro st hs n tags line; simp [loopPoints, loop]
  | cons nl reads ih =>
    intro st hs n tags line
    simp only [loopPoints, loop]
    cases hs1 : processLine p st n line (some nl) with
    | continues st' emitted =>
      have := ih st' (headersAfter hs line) (n + 1) (tags ++ emitted.toList) nl
      simp only [] at this ⊢
      cases hl : loopPoints p st' (headersAfter hs line) (n + 1) (tags ++ emitted.toList) nl reads
        with
      | nil => rw [hl] at this; simp at this
      | cons y ys =>
        rw [hl] at this
        rw [List.getLast?_cons_cons]
        exact this
    | panics => simp
    | unknown => simp

/-- The last point of a scan holds the tags of the scan. -/
theorem scanPoints_tags (p : tagParser) (input : Str) :
    ((scanPoints p input).getLast?).map ScanPoint.tags = some (parse p input).tags := by
  unfold scanPoints parse
  cases readLines input with
  | nil => rfl
  | cons nl reads => exact loopPoints_tags p reads initialState [] 1 [] nl

/-- With a package that is described for every pattern, building and applying a pattern has a
described outcome. -/
theorem lineMatch_known (regexp : Str → Library) (h : ∀ source, regexp source ≠ Library.unknown)
    (x key : Str) (group : Bool) (line : Str) :
    lineMatch regexp x key group line ≠ Found.unknown := by
  unfold lineMatch
  split
  · split
    · split <;> simp
    · split <;> simp
  · simp
  · split
    · split <;> simp
    · simp
    · rename_i hu
      exact absurd hu (h _)

/-- With a package that is described for every pattern, every iteration continues or
panics. -/
theorem processLine_known (p : tagParser) (h : ∀ source, p.regexp source ≠ Library.unknown)
    (st : parseState) (n : Int) (line : Str) (nextLine : Option Str) :
    processLine p st n line nextLine ≠ Step.unknown := by
  unfold processLine
  split
  · unfold sectionRule
    simp only []
    split <;> simp
  · split
    · simp
    · rename_i hu
      exact absurd hu (lineMatch_known p.regexp h _ _ _ _)
    · simp [itemRule]
    · unfold jobOrJobsList
      split
      · simp
      · rename_i hu
        exact absurd hu (lineMatch_known p.regexp h _ _ _ _)
      · simp [jobRule]
      · unfold jobsListRule
        split
        · simp
        · rename_i hu
          exact absurd hu (lineMatch_known p.regexp h _ _ _ _)
        · split <;> simp
        · simp

theorem loop_ending_known (p : tagParser) (h : ∀ source, p.regexp source ≠ Library.unknown)
    (reads : List Str) :
    ∀ (st : parseState) (n : Int) (tags : List Tag) (line : Str),
      (loop p st n tags line reads).ending ≠ Ending.unknown := by
  induction reads with
  | nil => intro st n tags line; simp [loop]
  | cons nl reads ih =>
    intro st n tags line
    unfold loop
    cases hs1 : processLine p st n line (some nl) with
    | continues st' emitted => exact ih st' (n + 1) _ nl
    | panics => simp
    | unknown => exact absurd hs1 (processLine_known p h st n line (some nl))

/-- With a package that is described for every pattern, as the package `regexp` itself is,
every scan runs until `parse` returns or panics: no scan ends as `unknown`. -/
theorem parse_ending_known (p : tagParser) (h : ∀ source, p.regexp source ≠ Library.unknown)
    (input : Str) : (parse p input).ending ≠ Ending.unknown := by
  unfold parse
  cases readLines input with
  | nil => simp
  | cons nl reads => exact loop_ending_known p h reads initialState 1 [] nl

/-- Scans that build patterns from a prefix with pattern syntax.  In `update:` /
`  <<: *default` / ... the item prefix is `  <<: *`; the patterns spliced from it compile, do
not match the line `  <<: *default`, and the scan goes on to the lines after it: the first
scan returns the tags of `update`, `vm_types` and `a`, and the second one reaches the point at
which the header `stemcells:` has set the stemcells flag. -/
theorem scan_with_spliced_star :
    sectionPrefix [] (some "  <<: *default\n".toList) = some "  <<: *".toList
      ∧ parse { manifest with regexp := mergeKeyOnly }
          "update:\n  <<: *default\nvm_types:\n- name: a\n\n".toList
        = { tags := [{ Name := "update".toList, File := "manifest.yml".toList,
                       Address := "/\\%1l\\%1c/".toList, Typ := Primitive,
                       Fields := [(Line, "1".toList), (TypeField, "section".toList)] },
                     { Name := "vm_types".toList, File := "manifest.yml".toList,
                       Address := "/\\%3l\\%1c/".toList, Typ := Primitive,
                       Fields := [(Line, "3".toList), (TypeField, "section".toList)] },
                     { Name := "a".toList, File := "manifest.yml".toList,
                       Address := "/\\%4l\\%4c/".toList, Typ := VM,
                       Fields := [(Line, "4".toList), (PrimitiveType, "vm_types".toList),
                                  (TypeField, "vm_types".toList)] }],
            ending := Ending.returned }
      ∧ (scanPoints { manifest with regexp := mergeKeyOnly }
            "update:\n  <<: *default\nstemcells:\n- alias: d\n".toList).map
          (fun x => (x.state.inStemcells, x.headers, x.state.pfx))
        = [(false, [], []),
           (false, ["update".toList], "  <<: *".toList),
           (false, ["update".toList], "  <<: *".toList),
           (true, ["update".toList, "stemcells".toList], [])] := by
  decide

/-! ## The tags of a scan and the lines they come from -/

theorem loop_numbered (p : tagParser) (lines : List Str) (reads : List Str) :
    ∀ (done : List Str) (line : Str) (st : parseState) (n : Int) (tags : List Tag)
      (numbered : List (Tag × Nat)),
      lines = done ++ line :: reads → n = ((done.length + 1 : Nat) : Int) →
      numbered.map Prod.fst = tags →
      (numbered.map Prod.snd).Pairwise (fun a b => a < b) →
      (∀ x ∈ numbered, x.2 ≤ done.length ∧ producedBy p lines x.1 x.2) →
      ∃ numbered' : List (Tag × Nat),
        numbered'.map Prod.fst = (loop p st n tags line reads).tags
          ∧ (numbered'.map Prod.snd).Pairwise (fun a b => a < b)
          ∧ ∀ x ∈ numbered', producedBy p lines x.1 x.2 := by
  induction reads with
  | nil =>
    intro done line st n tags numbered _ _ h1 h2 h3
    exact ⟨numbered, by simpa [loop] using h1, h2, fun x hx => (h3 x hx).2⟩
  | cons nl reads ih =>
    intro done line st n tags numbered hl hn h1 h2 h3
    unfold loop
    cases hs : processLine p st n line (some nl) with
    | panics => exact ⟨numbered, h1, h2, fun x hx => (h3 x hx).2⟩
    | unknown => exact ⟨numbered, h1, h2, fun x hx => (h3 x hx).2⟩
    | continues st' emitted =>
      have hl' : lines = (done ++ [line]) ++ nl :: reads := by simp [hl]
      have hn' : n + 1 = (((done ++ [line]).length + 1 : Nat) : Int) := by
        simp [hn]
      cases emitted with
      | none =>
        refine ih (done ++ [line]) nl st' (n + 1) _ numbered hl' hn' (by simp [h1]) h2 ?_
        intro x hx
        refine ⟨?_, (h3 x hx).2⟩
        have := (h3 x hx).1
        simp only [List.length_append, List.length_singleton]
        omega
      | some t =>
        have hp : producedBy p lines t (done.length + 1) := by
          refine ⟨by omega, st, st', line, nl, ?_, ?_, ?_⟩
          · rw [hl, Nat.add_sub_cancel, List.get?_eq_getElem?,
              List.getElem?_append_right (le_refl _)]
            simp
          · rw [hl']
            have : (done ++ [line]).length = done.length + 1 := by simp
            rw [← this, List.get?_eq_getElem?, List.getElem?_append_right (le_refl _)]
            simp
          · rw [← hn]
            exact hs
        refine ih (done ++ [line]) nl st' (n + 1) _ (numbered ++ [(t, done.length + 1)])
          hl' hn' (by simp [h1]) ?_ ?_
        · rw [List.map_append, List.pairwise_append]
          refine ⟨h2, by simp, ?_⟩
          intro a ha b hb
          simp only [List.map_cons, List.map_nil, List.mem_singleton] at hb
          obtain ⟨x, hx, rfl⟩ := List.mem_map.1 ha
          have := (h3 x hx).1
          omega
        · intro x hx
          rcases List.mem_append.1 hx with hx | hx
          · refine ⟨?_, (h3 x hx).2⟩
            have := (h3 x hx).1
            simp only [List.length_append, List.length_singleton]
            omega
          · simp only [List.mem_singleton] at hx
            subst hx
            exact ⟨by simp, hp⟩

/-- The tags of a scan, in order, come from lines of strictly increasing numbers. -/
theorem parse_numbered (p : tagParser) (input : Str) :
    ∃ numbered : List (Tag × Nat),
      numbered.map Prod.fst = (parse p input).tags
        ∧ (numbered.map Prod.snd).Pairwise (fun a b => a < b)
        ∧ ∀ x ∈ numbered, producedBy p (readLines input) x.1 x.2 := by
  unfold parse
  cases h : readLines input with
  | nil => exact ⟨[], rfl, List.Pairwise.nil, by simp⟩
  | cons nl reads =>
    exact loop_numbered p (nl :: reads) reads [] nl initialState 1 [] [] rfl rfl rfl
      List.Pairwise.nil (by simp)

/-- C17: for every input, and whatever the package `regexp` does with the spliced patterns,
the tags of the scan come, in order, from lines of strictly increasing numbers, so a line
produces at most one tag; each tag is emitted by the line of its number, its `line` attribute
is the decimal rendering of that 1-based number, and its address carries the same number. -/
theorem tags_follow_the_lines (p : tagParser) (input : Str) :
    ∃ numbered : List (Tag × Nat),
      numbered.map Prod.fst = (parse p input).tags
        ∧ (numbered.map Prod.snd).Pairwise (fun a b => a < b)
        ∧ ∀ x ∈ numbered,
            producedBy p (readLines input) x.1 x.2
              ∧ getField x.1.Fields Line = some (Itoa (x.2 : Int))
              ∧ ∃ col : Int, x.1.Address
                  = "/\\%".toList ++ Itoa (x.2 : Int) ++ "l\\%".toList ++ Itoa col
                      ++ "c/".toList := by
  obtain ⟨numbered, h1, h2, h3⟩ := parse_numbered p input
  refine ⟨numbered, h1, h2, fun x hx => ?_⟩
  have hp := h3 x hx
  obtain ⟨_, st, st', line, nl, _, _, hs⟩ := hp
  obtain ⟨ha, hline, _⟩ := address_of_emitted_tag p st st' _ line (some nl) x.1 hs
  exact ⟨h3 x hx, hline, _, ha⟩

/-! ## Names -/

theorem switchSection_stored (kw : Str) (cur : TagType) (h : kw ∈ sectionKeywords) :
    (switchSection kw cur).2.1 ∈ storedKeywords := by
  simp only [sectionKeywords, List.mem_cons, List.mem_singleton, List.not_mem_nil, or_false]
    at h
  rcases h with rfl | rfl | rfl | rfl | rfl | rfl | rfl | rfl | rfl | rfl | rfl | rfl | rfl <;>
    simp +decide [switchSection, storedKeywords]

/-- The name of an emitted tag: a header tag carries a stored section keyword; a list-item tag
carries the text captured by the list-item pattern, and a job tag the text captured by the job
pattern; the captured text is a part of the line. -/
theorem name_of_emitted_tag (p : tagParser) (st st' : parseState) (n : Int) (line : Str)
    (nextLine : Option Str) (t : Tag)
    (h : processLine p st n line nextLine = Step.continues st' (some t)) :
    (sectionMatch line ≠ none ∧ t.Name ∈ storedKeywords ∧ t.Name ≠ [])
      ∨ (sectionMatch line = none
          ∧ (lineMatch p.regexp st.pfx (itemKey st) true line = Found.found t.Name
              ∨ lineMatch p.regexp st.jobsPrefix " name: ".toList true line
                  = Found.found t.Name)
          ∧ ∃ pre post, line = pre ++ t.Name ++ post) := by
  rcases processLine_continues_cases p st st' n line nextLine (some t) h with
    ⟨kw, trailing, hm, hr⟩ | ⟨hm, name, hf, hr⟩ | ⟨hm, _, name, hf, hr⟩ | ⟨_, _, _, he, _⟩
  · left
    obtain ⟨tag, ht, hname, _⟩ :=
      sectionRule_continues p st st' n line nextLine kw trailing _ hr
    simp only [Option.some.injEq] at ht
    subst ht
    have hs : t.Name ∈ storedKeywords := by
      rw [hname]
      exact switchSection_stored kw _ (firstKeyword_some _ _ _ _ hm).1
    refine ⟨by rw [hm]; simp, hs, ?_⟩
    intro h0
    rw [h0] at hs
    exact absurd hs (by decide)
  · right
    simp only [itemRule, Step.continues.injEq, Option.some.injEq] at hr
    obtain ⟨_, rfl⟩ := hr
    exact ⟨hm, Or.inl hf, lineMatch_part_of_line _ _ _ _ line _ hf⟩
  · right
    simp only [jobRule, Step.continues.injEq, Option.some.injEq] at hr
    obtain ⟨_, rfl⟩ := hr
    exact ⟨hm, Or.inr hf, lineMatch_part_of_line _ _ _ _ line _ hf⟩
  · exact Option.noConfusion he

theorem untilNewline_eq_nil (rest : Str) :
    untilNewline rest = [] ↔ (rest = [] ∨ ∃ post, rest = '\n' :: post) := by
  cases rest with
  | nil => simp [untilNewline]
  | cons c cs =>
    by_cases hc : c = '\n'
    · subst hc
      simp [untilNewline, List.takeWhile_cons]
    · have hb : (c != '\n') = true := by simpa using hc
      simp [untilNewline, List.takeWhile_cons, hb, hc]

/-- The prefixes after a step: the item prefix is kept, or becomes the leading run of the
lookahead or the empty text; the jobs prefix is kept or becomes the leading run of the
lookahead. -/
theorem processLine_prefixes (p : tagParser) (st st' : parseState) (n : Int) (line nl : Str)
    (emitted : Option Tag)
    (h : processLine p st n line (some nl) = Step.continues st' emitted) :
    (st'.pfx = st.pfx ∨ st'.pfx = leadingRun nl ∨ st'.pfx = [])
      ∧ (st'.jobsPrefix = st.jobsPrefix ∨ st'.jobsPrefix = leadingRun nl) := by
  unfold processLine at h
  split at h
  · unfold sectionRule at h
    simp only [sectionPrefix_some] at h
    simp only [Step.continues.injEq] at h
    obtain ⟨rfl, _⟩ := h
    refine ⟨Or.inr ?_, Or.inl rfl⟩
    show (if hasClassChar nl then leadingRun nl else []) = leadingRun nl
      ∨ (if hasClassChar nl then leadingRun nl else []) = []
    split_ifs
    · exact Or.inl rfl
    · exact Or.inr rfl
  · split at h
    · exact Step.noConfusion h
    · exact Step.noConfusion h
    · simp only [itemRule, Step.continues.injEq] at h
      obtain ⟨rfl, _⟩ := h
      exact ⟨Or.inl rfl, Or.inl rfl⟩
    · simp only [jobOrJobsList] at h
      split at h
      · exact Step.noConfusion h
      · exact Step.noConfusion h
      · simp only [jobRule, Step.continues.injEq] at h
        obtain ⟨rfl, _⟩ := h
        exact ⟨Or.inl rfl, Or.inl rfl⟩
      · simp only [jobsListRule, jobsListPrefix_some] at h
        split at h
        · exact Step.noConfusion h
        · exact Step.noConfusion h
        · split at h
          · exact Step.noConfusion h
          · rename_i newPfx hp
            simp only [Step.continues.injEq] at h
            obtain ⟨rfl, _⟩ := h
            refine ⟨Or.inl rfl, Or.inr ?_⟩
            show newPfx = leadingRun nl
            split_ifs at hp
            simp only [Option.some.injEq] at hp
            exact hp.symm
        · simp only [Step.continues.injEq] at h
          obtain ⟨rfl, _⟩ := h
          exact ⟨Or.inl rfl, Or.inl rfl⟩

/-- The name of a tag emitted in a state whose two prefixes hold no pattern-syntax character:
a list-item or job tag carries the text that follows the prefix, one dash or space and the
key, up to the newline. -/
theorem name_of_emitted_tag_literal (p : tagParser) (st st' : parseState) (n : Int)
    (line : Str) (nextLine : Option Str) (t : Tag)
    (hp : ∀ c ∈ st.pfx, c ∉ metaChars) (hj : ∀ c ∈ st.jobsPrefix, c ∉ metaChars)
    (hm : sectionMatch line = none)
    (h : processLine p st n line nextLine = Step.continues st' (some t)) :
    ∃ x c key rest, (x = st.pfx ∨ x = st.jobsPrefix) ∧ (c = '-' ∨ c = ' ')
      ∧ (key = " name: ".toList ∨ key = " alias: ".toList)
      ∧ line = x ++ c :: (key ++ rest) ∧ t.Name = untilNewline rest
      ∧ (t.Name = [] ↔ (rest = [] ∨ ∃ post, rest = '\n' :: post)) := by
  have hkey : itemKey st = " name: ".toList ∨ itemKey st = " alias: ".toList := by
    unfold itemKey
    split_ifs
    · exact Or.inr rfl
    · exact Or.inl rfl
  rcases name_of_emitted_tag p st st' n line nextLine t h with
    ⟨hne, _⟩ | ⟨_, hf | hf, _⟩
  · exact absurd hm hne
  · obtain ⟨c, rest, hc, hl, hn⟩ := (lineMatch_literal_found _ _ _ _ _ hp).1 hf
    exact ⟨st.pfx, c, itemKey st, rest, Or.inl rfl, hc, hkey, hl, hn, by
      rw [hn]; exact untilNewline_eq_nil rest⟩
  · obtain ⟨c, rest, hc, hl, hn⟩ := (lineMatch_literal_found _ _ _ _ _ hj).1 hf
    exact ⟨st.jobsPrefix, c, _, rest, Or.inr rfl, hc, Or.inl rfl, hl, hn, by
      rw [hn]; exact untilNewline_eq_nil rest⟩

/-- C14, as stated, fails.  In `vm_types:` / `- name: ` (nothing after the key) the second line
is recognized as a list item and its tag carries the empty name.  In `vm_types:` /
`|- name: a` / `whatever` the item prefix is `|`, and the list-item pattern
`^|[- ] name: (.*)` matches every line without its group taking part: the lines `|- name: a`
and `whatever` both yield a tag with the empty name. -/
theorem empty_name_scan :
    Parse manifest "vm_types:\n- name: \n\n".toList
      = some [{ Name := "vm_types".toList, File := "manifest.yml".toList,
                Address := "/\\%1l\\%1c/".toList, Typ := Primitive,
                Fields := [(Line, "1".toList), (TypeField, "section".toList)] },
              { Name := [], File := "manifest.yml".toList,
                Address := "/\\%2l\\%1c/".toList, Typ := VM,
                Fields := [(Line, "2".toList), (PrimitiveType, "vm_types".toList),
                           (TypeField, "vm_types".toList)] }]
      ∧ Parse { manifest with regexp := alternationOnly }
          "vm_types:\n|- name: a\nwhatever\n\n".toList
        = some [{ Name := "vm_types".toList, File := "manifest.yml".toList,
                  Address := "/\\%1l\\%1c/".toList, Typ := Primitive,
                  Fields := [(Line, "1".toList), (TypeField, "section".toList)] },
                { Name := [], File := "manifest.yml".toList,
                  Address := "/\\%2l\\%1c/".toList, Typ := VM,
                  Fields := [(Line, "2".toList), (PrimitiveType, "vm_types".toList),
                             (TypeField, "vm_types".toList)] },
                { Name := [], File := "manifest.yml".toList,
                  Address := "/\\%3l\\%1c/".toList, Typ := VM,
                  Fields := [(Line, "3".toList), (PrimitiveType, "vm_types".toList),
                             (TypeField, "vm_types".toList)] }] := by
  decide

/-- C14, amended: for every input, the tags of the scan are the tags its steps append; a header
tag carries a non-empty name, a section keyword; a list-item or job tag carries the text
captured by the group of its pattern, a part of its line, which can be empty.  When no line of
the input holds a character of the pattern syntax before its first `-` or lowercase letter, a
list-item or job tag carries the text that follows the prefix, one `-` or space, and ` name: `
(or ` alias: `) on its line, up to the newline: its name is empty exactly when the key is
followed directly by the end of the line. -/
theorem names_of_scanned_tags (p : tagParser) (input : Str) :
    (parse p input).tags = (scanSteps p input).filterMap ScanStep.emitted
      ∧ (∀ s ∈ scanSteps p input, isStepOf p (readLines input) s)
      ∧ (∀ s ∈ scanSteps p input, ∀ t, s.emitted = some t →
          (sectionMatch s.line ≠ none ∧ t.Name ∈ storedKeywords ∧ t.Name ≠ [])
            ∨ (sectionMatch s.line = none
                ∧ (lineMatch p.regexp s.point.state.pfx (itemKey s.point.state) true s.line
                      = Found.found t.Name
                    ∨ lineMatch p.regexp s.point.state.jobsPrefix " name: ".toList true s.line
                        = Found.found t.Name)
                ∧ ∃ pre post, s.line = pre ++ t.Name ++ post))
      ∧ ((∀ line ∈ readLines input, ∀ c ∈ leadingRun line, c ∉ metaChars) →
          ∀ s ∈ scanSteps p input, ∀ t, s.emitted = some t →
            (sectionMatch s.line ≠ none ∧ t.Name ∈ storedKeywords ∧ t.Name ≠ [])
              ∨ (sectionMatch s.line = none
                  ∧ ∃ x c key rest,
                      (x = s.point.state.pfx ∨ x = s.point.state.jobsPrefix)
                        ∧ (c = '-' ∨ c = ' ')
                        ∧ (key = " name: ".toList ∨ key = " alias: ".toList)
                        ∧ s.line = x ++ c :: (key ++ rest)
                        ∧ t.Name = untilNewline rest
                        ∧ (t.Name = [] ↔ (rest = [] ∨ ∃ post, rest = '\n' :: post)))) := by
  have hsteps := scanSteps_spec p input (fun _ _ => True) (fun _ _ _ _ _ _ _ _ _ _ _ => trivial)
    trivial
  refine ⟨scanSteps_tags p input, fun s hs => (hsteps s hs).2, ?_, ?_⟩
  · intro s hs t ht
    obtain ⟨_, _, _, _, _, _, st', hstep⟩ := hsteps s hs
    rw [ht] at hstep
    exact name_of_emitted_tag p _ st' _ _ _ t hstep
  · intro hplain s hs t ht
    have hlit := scanSteps_spec p input
      (fun st _ => (∀ c ∈ st.pfx, c ∉ metaChars) ∧ (∀ c ∈ st.jobsPrefix, c ∉ metaChars))
      (by
        intro st hs' n line nl st' e _ hnl ⟨h1, h2⟩ hstep
        obtain ⟨ha, hb⟩ := processLine_prefixes p st st' n line nl e hstep
        refine ⟨?_, ?_⟩
        · rcases ha with ha | ha | ha
          · rw [ha]; exact h1
          · rw [ha]; exact hplain nl hnl
          · rw [ha]; simp
        · rcases hb with hb | hb
          · rw [hb]; exact h2
          · rw [hb]; exact hplain nl hnl)
      ⟨by simp [initialState], by decide⟩
    obtain ⟨⟨hp, hj⟩, _, _, _, _, _, st', hstep⟩ := hlit s hs
    rw [ht] at hstep
    rcases name_of_emitted_tag p _ st' _ _ _ t hstep with h | ⟨hm, _, _⟩
    · exact Or.inl h
    · exact Or.inr ⟨hm, name_of_emitted_tag_literal p _ st' _ _ _ t hp hj hm hstep⟩

/-- C14 (amended) at a concrete scan: no line of `vm_types:` / `- name: ` holds a
pattern-syntax character before its first `-` or lowercase letter; the scan has two steps, and
the tag of its line `- name: ` carries the empty name. -/
theorem names_of_scanned_tags_witness :
    (∀ line ∈ readLines "vm_types:\n- name: \n\n".toList, ∀ c ∈ leadingRun line,
        c ∉ metaChars)
      ∧ (scanSteps manifest "vm_types:\n- name: \n\n".toList).map
            (fun s => (s.lineNum, s.line, s.emitted.map Tag.Name))
          = [(1, "vm_types:\n".toList, some "vm_types".toList),
             (2, "- name: \n".toList, some [])]
      ∧ (∀ s ∈ scanSteps manifest "vm_types:\n- name: \n\n".toList, ∀ t, s.emitted = some t →
          (sectionMatch s.line ≠ none ∧ t.Name ∈ storedKeywords ∧ t.Name ≠ [])
            ∨ (sectionMatch s.line = none
                ∧ ∃ x c key rest,
                    (x = s.point.state.pfx ∨ x = s.point.state.jobsPrefix)
                      ∧ (c = '-' ∨ c = ' ')
                      ∧ (key = " name: ".toList ∨ key = " alias: ".toList)
                      ∧ s.line = x ++ c :: (key ++ rest)
                      ∧ t.Name = untilNewline rest
                      ∧ (t.Name = [] ↔ (rest = [] ∨ ∃ post, rest = '\n' :: post)))) :=
  ⟨by decide, by decide,
   (names_of_scanned_tags manifest "vm_types:\n- name: \n\n".toList).2.2.2 (by decide)⟩

/-! ## Kinds -/

theorem sectionKinds_declared (k : TagType) (h : k ∈ sectionKinds) :
    k ∈ declaredKinds ∨ k = [] := by
  simp only [sectionKinds, List.mem_cons, List.mem_singleton, List.not_mem_nil, or_false] at h
  rcases h with rfl | rfl | rfl | rfl | rfl | rfl | rfl | rfl <;> decide

/-- The switch assigns the kind of the keyword when the keyword assigns one, and keeps
`currentSection` otherwise. -/
theorem switchSection_assigned (kw : Str) (cur : TagType) :
    (switchSection kw cur).1 = (assignedKind kw).getD cur := by
  by_cases h1 : kw = "vm_types".toList
  · subst h1; rfl
  by_cases h2 : kw = "resource_pools".toList
  · subst h2; rfl
  by_cases h3 : kw = "disk_types".toList
  · subst h3; rfl
  by_cases h4 : kw = "disk_pools".toList
  · subst h4; rfl
  by_cases h5 : kw = "networks".toList
  · subst h5; rfl
  by_cases h6 : kw = "azs".toList
  · subst h6; rfl
  by_cases h7 : kw = "instance_groups".toList
  · subst h7; rfl
  by_cases h8 : kw = "releases".toList
  · subst h8; rfl
  by_cases h9 : kw = "stemcells".toList
  · subst h9; rfl
  simp only [switchSection, assignedKind, h1, h2, h3, h4, h5, h6, h7, h8, h9, if_false,
    or_self, Option.getD_none]

theorem kindAfter_append (hs : List Str) (kw : Str) :
    kindAfter (hs ++ [kw]) = (switchSection kw (kindAfter hs)).1 := by
  rw [switchSection_assigned]
  unfold kindAfter
  rw [List.filterMap_append]
  cases h : assignedKind kw with
  | none => simp [List.filterMap, h]
  | some k => simp [List.filterMap, h]

theorem kindAfter_headersAfter (hs : List Str) (line : Str) :
    kindAfter (headersAfter hs line)
      = match sectionMatch line with
        | some (kw, _) => (switchSection kw (kindAfter hs)).1
        | none => kindAfter hs := by
  unfold headersAfter
  cases h : sectionMatch line with
  | none => rfl
  | some m =>
    obtain ⟨kw, t⟩ := m
    exact kindAfter_append hs kw

theorem kindAfter_kind (hs : List Str) : kindAfter hs ∈ sectionKinds := by
  induction hs using List.reverseRecOn with
  | nil => decide
  | append_singleton hs kw ih =>
    rw [kindAfter_append]
    exact switchSection_kind kw _ ih

/-- One step keeps `currentSection` equal to the kind assigned by the most recent processed
header that assigns one. -/
theorem currentSection_step (p : tagParser) (st st' : parseState) (hs : List Str) (n : Int)
    (line : Str) (nextLine : Option Str) (emitted : Option Tag)
    (h1 : st.currentSection = kindAfter hs)
    (h : processLine p st n line nextLine = Step.continues st' emitted) :
    st'.currentSection = kindAfter (headersAfter hs line) := by
  rw [kindAfter_headersAfter]
  cases hm : sectionMatch line with
  | none =>
    obtain ⟨_, _, hc, _⟩ := processLine_keeps_section p st st' n line nextLine emitted hm h
    simp only [hc, h1]
  | some m =>
    obtain ⟨kw, trailing⟩ := m
    simp only [processLine, hm] at h
    obtain ⟨_, _, _, _, _, _, _, hsec, _⟩ :=
      sectionRule_continues p st st' n line nextLine kw trailing emitted h
    simp only [hsec, h1]

/-- The kind of an emitted tag, by the rule that takes the line: the section rule gives `p` or
`b`, the list-item rule gives `currentSection`, the job rule gives `j`. -/
theorem kind_of_emitted_tag (p : tagParser) (st st' : parseState) (n : Int) (line : Str)
    (nextLine : Option Str) (t : Tag)
    (h : processLine p st n line nextLine = Step.continues st' (some t)) :
    (firedRule p st line = some Rule.header ∧ (t.Typ = Primitive ∨ t.Typ = Basic))
      ∨ (firedRule p st line = some Rule.item ∧ t.Typ = st.currentSection)
      ∨ (firedRule p st line = some Rule.job ∧ t.Typ = Job) := by
  rcases processLine_continues_cases p st st' n line nextLine (some t) h with
    ⟨kw, trailing, hm, hr⟩ | ⟨hm, name, hf, hr⟩ | ⟨hm, hno, name, hf, hr⟩ | ⟨_, _, _, he, _⟩
  · left
    obtain ⟨tag, ht, _, hty, _⟩ :=
      sectionRule_continues p st st' n line nextLine kw trailing _ hr
    simp only [Option.some.injEq] at ht
    subst ht
    exact ⟨by simp only [firedRule, hm], hty⟩
  · right; left
    simp only [itemRule, Step.continues.injEq, Option.some.injEq] at hr
    obtain ⟨_, rfl⟩ := hr
    exact ⟨by simp only [firedRule, hm, hf], rfl⟩
  · right; right
    simp only [jobRule, Step.continues.injEq, Option.some.injEq] at hr
    obtain ⟨_, rfl⟩ := hr
    exact ⟨by simp only [firedRule, hm, hno, hf], rfl⟩
  · exact Option.noConfusion he

/-- C15, as stated, fails: in `name: x` / `- name: a` the item line follows a section header,
and its tag carries the empty kind: no header has assigned a kind yet. -/
theorem empty_kind_scan :
    Parse manifest "name: x\n- name: a\n\n".toList
      = some [{ Name := "name".toList, File := "manifest.yml".toList,
                Address := "/\\%1l\\%1c/".toList, Typ := Basic,
                Fields := [(Line, "1".toList), (TypeField, "x".toList)] },
              { Name := "a".toList, File := "manifest.yml".toList,
                Address := "/\\%2l\\%4c/".toList, Typ := [],
                Fields := [(Line, "2".toList), (PrimitiveType, "name".toList),
                           (TypeField, "name".toList)] }]
      ∧ ([] : TagType) ∉ declaredKinds := by
  decide

/-- C15, amended: for every input, the kind of every tag of the scan is one of the ten declared
kinds or the empty kind.  The tags of the scan are the tags its steps append, and at every step
`currentSection` is the kind assigned by the most recent processed header that assigns one
(`vm_types`, `resource_pools`, `disk_types`, `disk_pools`, `networks`, `azs`,
`instance_groups`, `releases`, `stemcells`), the empty kind as long as there has been no such
header; a tag appended by the section rule carries `p` or `b`, a tag appended by the list-item
rule carries that kind, and a tag appended by the job rule carries `j`. -/
theorem kinds_of_scanned_tags (p : tagParser) (input : Str) :
    (∀ t ∈ (parse p input).tags, t.Typ ∈ declaredKinds ∨ t.Typ = [])
      ∧ (parse p input).tags = (scanSteps p input).filterMap ScanStep.emitted
      ∧ ∀ s ∈ scanSteps p input,
          isStepOf p (readLines input) s
            ∧ s.point.state.currentSection = kindAfter s.point.headers
            ∧ ((∀ kw ∈ s.point.headers, assignedKind kw = none) → kindAfter s.point.headers = [])
            ∧ ∀ t, s.emitted = some t →
                (firedRule p s.point.state s.line = some Rule.header
                    ∧ (t.Typ = Primitive ∨ t.Typ = Basic))
                  ∨ (firedRule p s.point.state s.line = some Rule.item
                      ∧ t.Typ = kindAfter s.point.headers)
                  ∨ (firedRule p s.point.state s.line = some Rule.job ∧ t.Typ = Job) := by
  have hsteps := scanSteps_spec p input (fun st hs => st.currentSection = kindAfter hs)
    (fun st hs n line nl st' e _ _ h1 h => currentSection_step p st st' hs n line (some nl) e h1 h)
    rfl
  have hall : ∀ s ∈ scanSteps p input,
      isStepOf p (readLines input) s
        ∧ s.point.state.currentSection = kindAfter s.point.headers
        ∧ ((∀ kw ∈ s.point.headers, assignedKind kw = none) → kindAfter s.point.headers = [])
        ∧ ∀ t, s.emitted = some t →
            (firedRule p s.point.state s.line = some Rule.header
                ∧ (t.Typ = Primitive ∨ t.Typ = Basic))
              ∨ (firedRule p s.point.state s.line = some Rule.item
                  ∧ t.Typ = kindAfter s.point.headers)
              ∨ (firedRule p s.point.state s.line = some Rule.job ∧ t.Typ = Job) := by
    intro s hs
    obtain ⟨hcur, hstepOf⟩ := hsteps s hs
    refine ⟨hstepOf, hcur, ?_, ?_⟩
    · intro hnone
      unfold kindAfter
      have : s.point.headers.filterMap assignedKind = [] := by
        rw [List.filterMap_eq_nil_iff]
        exact hnone
      rw [this]
      rfl
    · intro t ht
      obtain ⟨_, _, _, _, _, st', hstep⟩ := hstepOf
      rw [ht] at hstep
      have := kind_of_emitted_tag p _ st' _ _ _ t hstep
      rw [hcur] at this
      exact this
  refine ⟨?_, scanSteps_tags p input, hall⟩
  intro t ht
  rw [scanSteps_tags, List.mem_filterMap] at ht
  obtain ⟨s, hs, hem⟩ := ht
  obtain ⟨_, _, _, hk⟩ := hall s hs
  rcases hk t hem with ⟨_, h | h⟩ | ⟨_, h⟩ | ⟨_, h⟩
  · rw [h]; left; decide
  · rw [h]; left; decide
  · rw [h]; exact sectionKinds_declared _ (kindAfter_kind _)
  · rw [h]; left; decide

/-- C15 (amended) at a concrete scan: the steps of `instance_groups:` / `- name: web` /
`  jobs:` / `  - name: nginx`, with the rule that takes each line, the kind of the tag it
appends and the kind assigned by the headers processed before. -/
theorem kinds_of_scanned_tags_witness :
    (scanSteps manifest "instance_groups:\n- name: web\n  jobs:\n  - name: nginx\n\n".toList).map
        (fun s => (s.lineNum, firedRule manifest s.point.state s.line,
                   s.emitted.map Tag.Typ, kindAfter s.point.headers))
      = [(1, some Rule.header, some Primitive, []),
         (2, some Rule.item, some InstanceGroup, InstanceGroup),
         (3, none, none, InstanceGroup),
         (4, some Rule.job, some Job, InstanceGroup)]
      ∧ (parse manifest "instance_groups:\n- name: web\n  jobs:\n  - name: nginx\n\n".toList).tags
          = (scanSteps manifest
              "instance_groups:\n- name: web\n  jobs:\n  - name: nginx\n\n".toList).filterMap
              ScanStep.emitted :=
  ⟨by decide,
   (kinds_of_scanned_tags manifest
      "instance_groups:\n- name: web\n  jobs:\n  - name: nginx\n\n".toList).2.1⟩

/-! ## The item prefix as a pattern -/

/-- C16, as stated, fails: the item prefix is spliced into the pattern source and read as a
pattern.  With the prefix `(`, derived from the lookahead `(- name: a`, the pattern of the
list-item rule does not compile and the scan panics on the item line.  With the prefix `.`,
derived from `.- name: a`, the line `X- name: b`, which does not start with the prefix, is
recognized as a list item. -/
theorem spliced_prefix_is_a_pattern :
    sectionPrefix [] (some "(- name: a\n".toList) = some "(".toList
      ∧ parse manifest "vm_types:\n(- name: a\n\n".toList
        = { tags := [{ Name := "vm_types".toList, File := "manifest.yml".toList,
                       Address := "/\\%1l\\%1c/".toList, Typ := Primitive,
                       Fields := [(Line, "1".toList), (TypeField, "section".toList)] }],
            ending := Ending.panicked }
      ∧ sectionPrefix [] (some ".- name: a\n".toList) = some ".".toList
      ∧ Parse manifest "vm_types:\n.- name: a\nX- name: b\n\n".toList
        = some [{ Name := "vm_types".toList, File := "manifest.yml".toList,
                  Address := "/\\%1l\\%1c/".toList, Typ := Primitive,
                  Fields := [(Line, "1".toList), (TypeField, "section".toList)] },
                { Name := "a".toList, File := "manifest.yml".toList,
                  Address := "/\\%2l\\%5c/".toList, Typ := VM,
                  Fields := [(Line, "2".toList), (PrimitiveType, "vm_types".toList),
                             (TypeField, "vm_types".toList)] },
                { Name := "b".toList, File := "manifest.yml".toList,
                  Address := "/\\%3l\\%10c/".toList, Typ := VM,
                  Fields := [(Line, "3".toList), (PrimitiveType, "vm_types".toList),
                             (TypeField, "vm_types".toList)] }] := by
  decide

/-- C16, amended: the item prefix is spliced into the pattern of the list-item rule; when it
holds no character of the pattern syntax it is matched as a literal string.  For every such
prefix and every line, building the matcher succeeds, and the line is recognized by the
list-item rule if and only if it starts with the prefix, character for character, followed by
one `-` or space and then ` name: ` (` alias: ` in the stemcells section); a recognized line
(the prefix having no `-` and no lowercase letter) is handled by the list-item rule. -/
theorem literal_prefix_is_matched_literally (p : tagParser) (st : parseState) (n : Int)
    (line : Str) (nextLine : Option Str) (hlit : ∀ c ∈ st.pfx, c ∉ metaChars) :
    (∃ nodes, MustCompile st.pfx (itemKey st) = Compiled.ok nodes)
      ∧ (recognizedAsItem p st line = true
          ↔ ∃ c rest, (c = '-' ∨ c = ' ') ∧ line = st.pfx ++ c :: (itemKey st ++ rest))
      ∧ ((∀ ch ∈ st.pfx, ch ∉ classChars) → recognizedAsItem p st line = true →
          ∃ name, processLine p st n line nextLine = itemRule p st n line name) := by
  have hrec : recognizedAsItem p st line = true
      ↔ ∃ name, lineMatch p.regexp st.pfx (itemKey st) true line = Found.found name := by
    unfold recognizedAsItem
    split <;> simp_all
  have hiff : recognizedAsItem p st line = true
      ↔ ∃ c rest, (c = '-' ∨ c = ' ') ∧ line = st.pfx ++ c :: (itemKey st ++ rest) := by
    rw [hrec]
    constructor
    · rintro ⟨name, h⟩
      obtain ⟨c, rest, hc, hl, _⟩ := (lineMatch_literal_found _ _ _ _ _ hlit).1 h
      exact ⟨c, rest, hc, hl⟩
    · rintro ⟨c, rest, hc, hl⟩
      exact ⟨_, (lineMatch_literal_found _ _ _ _ _ hlit).2 ⟨c, rest, hc, hl, rfl⟩⟩
  refine ⟨⟨_, MustCompile_literal st.pfx (itemKey st) hlit⟩, hiff, ?_⟩
  intro hcls h
  obtain ⟨c, rest, hch, hline⟩ := hiff.1 h
  have hsec : sectionMatch line = none := by
    rw [hline]
    exact sectionMatch_none_of_prefixed _ _ _ hcls hch
  obtain ⟨name, hf⟩ := hrec.1 h
  refine ⟨name, ?_⟩
  have hf' : lineMatch p.regexp st.pfx
      (if st.inStemcells = true then " alias: ".toList else " name: ".toList) true line
      = Found.found name := hf
  simp only [processLine, hsec, hf']

/-- C16 (amended) at a concrete state: the prefix of two blanks left by `vm_types:` before
`  - name: a`, and that item line. -/
theorem literal_prefix_is_matched_literally_witness :
    processLine manifest initialState 1 "vm_types:\n".toList (some "  - name: a\n".toList)
        = Step.continues
            { initialState with currentSection := VM, currentPrimitive := "vm_types".toList,
                                pfx := "  ".toList }
            (some { Name := "vm_types".toList, File := "manifest.yml".toList,
                    Address := "/\\%1l\\%1c/".toList, Typ := Primitive,
                    Fields := [(Line, "1".toList), (TypeField, "section".toList)] })
      ∧ (recognizedAsItem manifest
            { initialState with currentSection := VM, currentPrimitive := "vm_types".toList,
                                pfx := "  ".toList } "  - name: a\n".toList = true
          ↔ ∃ c rest, (c = '-' ∨ c = ' ')
              ∧ "  - name: a\n".toList = "  ".toList ++ c :: (" name: ".toList ++ rest)) :=
  ⟨by decide,
   (literal_prefix_is_matched_literally manifest
      { initialState with currentSection := VM, currentPrimitive := "vm_types".toList,
                          pfx := "  ".toList } 2 "  - name: a\n".toList (some "\n".toList)
      (by decide)).2.1⟩

/-! ## The stemcells flag -/

theorem switchSection_stemcells (kw : Str) (cur : TagType) :
    ((switchSection kw cur).2.2 = true ↔ kw = "stemcells".toList)
      ∧ ((switchSection kw cur).2.2 = true → (switchSection kw cur).1 = Stemcell) := by
  unfold switchSection
  split_ifs with h1 h2 h3 h4 h5 h6 h7 h8 h9 <;> simp_all +decide

/-- One step keeps the relation between the stemcells flag, the most recent header and the
section kind. -/
theorem stemcells_flag_step (p : tagParser) (st st' : parseState) (hs : List Str) (n : Int)
    (line : Str) (nextLine : Option Str) (emitted : Option Tag)
    (h : (st.inStemcells = true ↔ hs.getLast? = some "stemcells".toList)
      ∧ (st.inStemcells = true → st.currentSection = Stemcell))
    (hstep : processLine p st n line nextLine = Step.continues st' emitted) :
    (st'.inStemcells = true ↔ (headersAfter hs line).getLast? = some "stemcells".toList)
      ∧ (st'.inStemcells = true → st'.currentSection = Stemcell) := by
  obtain ⟨h1, h2⟩ := h
  cases hm : sectionMatch line with
  | none =>
    obtain ⟨_, ha, hb, _⟩ := processLine_keeps_section p st st' n line nextLine emitted hm hstep
    simp only [headersAfter, hm, ha, hb]
    exact ⟨h1, h2⟩
  | some m =>
    obtain ⟨kw, trailing⟩ := m
    simp only [processLine, hm] at hstep
    obtain ⟨_, _, _, _, _, _, _, hsec, hstem, _, _⟩ :=
      sectionRule_continues p st st' n line nextLine kw trailing emitted hstep
    obtain ⟨ha, hb⟩ := switchSection_stemcells kw st.currentSection
    have hlast : (hs ++ [kw]).getLast? = some kw := by simp
    simp only [headersAfter, hm, hsec, hstem, hlast, Option.some.injEq]
    exact ⟨ha, hb⟩

/-- C18: at every point of every scan, whatever the package `regexp` does with the spliced
patterns, the stemcells flag is true exactly when the most recently processed section header
has the keyword `stemcells`, and whenever it is true `currentSection` is the stemcell kind. -/
theorem stemcells_flag_invariant (p : tagParser) (input : Str) (x : ScanPoint)
    (hx : x ∈ scanPoints p input) :
    (x.state.inStemcells = true ↔ x.headers.getLast? = some "stemcells".toList)
      ∧ (x.state.inStemcells = true → x.state.currentSection = Stemcell) :=
  scanPoints_invariant p input
    (fun st hs => (st.inStemcells = true ↔ hs.getLast? = some "stemcells".toList)
      ∧ (st.inStemcells = true → st.currentSection = Stemcell))
    (fun st hs n line nl st' e h hstep => stemcells_flag_step p st st' hs n line (some nl) e h hstep)
    (by decide) x hx

/-- C18 at a concrete scan: the point reached after the lines `stemcells:` and
`- alias: default`, where the flag is set, and the point after the next header `update:`, where
it is not, although `currentSection` is still the stemcell kind. -/
theorem stemcells_flag_invariant_witness :
    (scanPoints manifest "stemcells:\n- alias: default\nupdate:\n\n".toList).map
        (fun x => (x.state.inStemcells, x.headers, x.state.currentSection))
      = [(false, [], []),
         (true, ["stemcells".toList], Stemcell),
         (true, ["stemcells".toList], Stemcell),
         (false, ["stemcells".toList, "update".toList], Stemcell)]
      ∧ ((true = true ↔ ["stemcells".toList].getLast? = some "stemcells".toList)
        ∧ (true = true → Stemcell = Stemcell)) :=
  ⟨by decide,
   stemcells_flag_invariant manifest "stemcells:\n- alias: default\nupdate:\n\n".toList
     { state := { initialState with currentSection := Stemcell, inStemcells := true,
                                    currentPrimitive := "stemcells".toList },
       headers := ["stemcells".toList],
       tags := [{ Name := "stemcells".toList, File := "manifest.yml".toList,
                  Address := "/\\%1l\\%1c/".toList, Typ := Primitive,
                  Fields := [(Line, "1".toList), (TypeField, "section".toList)] }] }
     (by decide)⟩

end Boshtags
